import Mathlib

/-!
Verification development for the goc C front end (tokenizer and
preprocessor).  The Go sources are shallowly embedded: byte sources become
`List Char`, stateful readers become explicit state passing, Go maps become
association lists, and fallible code returns `Except String`.  The
recursive preprocessor is embedded as a fuel-indexed interpreter; its
termination is then proved as a theorem (existence of sufficient fuel).

Pieces of the repository that are referenced by the sources at hand but
whose own code is not available (the `lex` literal sub-lexers, the keyword
table, the preprocessor `Token` plumbing `nextExpected` and
`stringConcatter`, and the `Macro.apply` expansion operation) are modelled
from the specification; each such definition says so in its doc comment.
-/

namespace Goc

/-! ## Character classes (src/internal/literal/ppnumber.go) -/

/-- `isNondigit` from literal/ppnumber.go: `A–Z`, `a–z`, or `_`. -/
def isNondigit (c : Char) : Bool :=
  ('A' ≤ c && c ≤ 'Z') || ('a' ≤ c && c ≤ 'z') || c = '_'

/-- `isDigit` used by `ReadPPNumber` (definition not in the given sources;
modelled as the decimal digits, the only reading consistent with its use). -/
def isDigit (c : Char) : Bool :=
  '0' ≤ c && c ≤ '9'

/-- Is `c` one of the exponent markers `e E p P` (the condition on line 68 of
ppnumber.go). -/
def isExpoMark (c : Char) : Bool :=
  c = 'e' || c = 'E' || c = 'p' || c = 'P'

/-! ## ReadPPNumber (src/internal/literal/ppnumber.go, lines 37-92)

The byte source is a `List Char`; `Peek`/`Discard` become pattern matching.
`readPPNumberLoop` is the `for` loop of lines 49-89: it returns the consumed
spelling together with the unconsumed remainder. -/

def readPPNumberLoop : List Char → List Char × List Char
  | [] => ([], [])
  | c :: rest =>
    if ¬ isDigit c ∧ c ≠ '.' ∧ ¬ isNondigit c then
      ([], c :: rest)
    else if isExpoMark c then
      match _h : rest with
      | [] => ([c], [])
      | d :: rest2 =>
        if d = '+' ∨ d = '-' then
          let p := readPPNumberLoop rest2
          (c :: d :: p.1, p.2)
        else
          let p := readPPNumberLoop rest
          (c :: p.1, p.2)
    else
      let p := readPPNumberLoop rest
      (c :: p.1, p.2)
  termination_by l => l.length
  decreasing_by all_goals (simp_all [List.length_cons]; try omega)

/-- `ReadPPNumber`: reads one byte (EOF is an error, via `ShouldReadByte`),
requires it to be a digit or `.`, then runs the consumption loop.  Returns
the consumed spelling and the unconsumed rest of the source. -/
def ReadPPNumber (src : List Char) : Except String (String × List Char) :=
  match src with
  | [] => .error "ioutil: unexpected EOF"
  | b :: rest =>
    if ¬ isDigit b ∧ b ≠ '.' then
      .error ("literal: expected digit or . but " ++ toString b)
    else
      let p := readPPNumberLoop rest
      .ok (String.mk (b :: p.1), p.2)

/-- The consumption loop as the claim words it: consume while the next byte
is a digit, `.`, or nondigit, additionally consuming a `+` or `-` byte
exactly when the just-consumed byte (`prev`) was one of `e E p P`. -/
def ppNumberTailClaim (prev : Char) : List Char → List Char × List Char
  | [] => ([], [])
  | c :: rest =>
    if (c = '+' ∨ c = '-') ∧ isExpoMark prev then
      let p := ppNumberTailClaim c rest
      (c :: p.1, p.2)
    else if isDigit c ∨ c = '.' ∨ isNondigit c then
      let p := ppNumberTailClaim c rest
      (c :: p.1, p.2)
    else
      ([], c :: rest)

/-! ## Token data model

One shared token record (spec §3): the tokenizer (`internal/tokenize`) and
the preprocessor use tokens with the same fields.  Single-character token
kinds (Go `token.Type(b)`, including `'\n'` and `'#'`) are `chr c`.  The
numeric-value resolver is not among the given sources, so `numberValue`
holds the raw spelling of the literal (for character constants, the decimal
spelling of their integer value). -/

inductive TokenType where
  | chr (c : Char)
  | inc | dec | arrow
  | addEq | subEq | mulEq | divEq | modEq
  | eq | ne | shl | shr | shlEq | shrEq
  | andAnd | orOr | andEq | orEq | xorEq
  | dotDotDot | hashHash
  | ident
  | numberLiteral
  | stringLiteral
  | headerName
  | param
  | eof
  | keyword (s : String)
  deriving DecidableEq, Repr

structure Token where
  type : TokenType
  name : String := ""
  stringValue : String := ""
  numberValue : String := ""
  adjacent : Bool := false
  paramIndex : Nat := 0
  paramHash : Bool := false
  expandedFrom : List String := []
  deriving DecidableEq, Repr

/-- The preprocessor token payload `Val` (the preprocessor's own token type
is not among the given sources; per spec §3, identifiers carry their
spelling in `name`, header names and string literals their text in
`string_value`). -/
def Token.val (t : Token) : String :=
  match t.type with
  | .ident => t.name
  | _ => t.stringValue

/-! ## Literal sub-lexers

`lex.ReadHeaderName`, `lex.ReadString`, `lex.ReadChar`, `lex.ReadNumber`,
`lex.ReadIdentifier` and the keyword table are referenced by
tokenize.go but their code is not among the given sources; they are
modelled from spec §4.2. -/

/-- Modelled from the spec: header name (spec §4.2) — text between `<…>` or
`"…"` taken verbatim (no escape processing); fails when the input ends
before the closing delimiter.  `close` is the expected terminator. -/
def readHeaderNameLoop (close : Char) : List Char → Except String (List Char × List Char)
  | [] => .error "lex: header name not terminated"
  | c :: rest =>
    if c = close then .ok ([], rest)
    else
      match readHeaderNameLoop close rest with
      | .error e => .error e
      | .ok p => .ok (c :: p.1, p.2)

/-- Modelled from the spec: `lex.ReadHeaderName` (called with the opening
delimiter still unconsumed). -/
def ReadHeaderName : List Char → Except String (String × List Char)
  | '<' :: rest =>
    match readHeaderNameLoop '>' rest with
    | .error e => .error e
    | .ok p => .ok (String.mk p.1, p.2)
  | '"' :: rest =>
    match readHeaderNameLoop '"' rest with
    | .error e => .error e
    | .ok p => .ok (String.mk p.1, p.2)
  | _ => .error "lex: header name expected"

def isOctDigit (c : Char) : Bool := '0' ≤ c && c ≤ '7'

def isHexDigit (c : Char) : Bool :=
  isDigit c || ('a' ≤ c && c ≤ 'f') || ('A' ≤ c && c ≤ 'F')

def octDigitVal (c : Char) : Nat := c.toNat - '0'.toNat

def hexDigitVal (c : Char) : Nat :=
  if isDigit c then c.toNat - '0'.toNat
  else if 'a' ≤ c && c ≤ 'f' then c.toNat - 'a'.toNat + 10
  else c.toNat - 'A'.toNat + 10

/-- Modelled from the spec: a C escape sequence after the backslash
(spec §4.2: `\n \t \v \b \r \f \a \\ \? \' \"`, octal `\ooo`, hex `\xhh…`).
Returns the decoded byte value and how many characters were consumed. -/
def readEscape : List Char → Except String (Nat × Nat)
  | [] => .error "lex: unterminated escape sequence"
  | c :: rest =>
    if c = 'n' then .ok (10, 1)
    else if c = 't' then .ok (9, 1)
    else if c = 'v' then .ok (11, 1)
    else if c = 'b' then .ok (8, 1)
    else if c = 'r' then .ok (13, 1)
    else if c = 'f' then .ok (12, 1)
    else if c = 'a' then .ok (7, 1)
    else if c = '\\' then .ok (92, 1)
    else if c = '?' then .ok (63, 1)
    else if c = '\'' then .ok (39, 1)
    else if c = '"' then .ok (34, 1)
    else if isOctDigit c then
      match rest with
      | d :: rest2 =>
        if isOctDigit d then
          match rest2 with
          | e :: _ =>
            if isOctDigit e then
              .ok ((octDigitVal c * 64 + octDigitVal d * 8 + octDigitVal e) % 256, 3)
            else .ok (octDigitVal c * 8 + octDigitVal d, 2)
          | [] => .ok (octDigitVal c * 8 + octDigitVal d, 2)
        else .ok (octDigitVal c, 1)
      | [] => .ok (octDigitVal c, 1)
    else if c = 'x' then
      match rest with
      | d :: rest2 =>
        if isHexDigit d then
          match rest2 with
          | e :: _ =>
            if isHexDigit e then .ok ((hexDigitVal d * 16 + hexDigitVal e) % 256, 3)
            else .ok (hexDigitVal d, 2)
          | [] => .ok (hexDigitVal d, 2)
        else .error "lex: invalid hex escape"
      | [] => .error "lex: invalid hex escape"
    else .error ("lex: invalid escape sequence " ++ toString c)

/-- Modelled from the spec: the body of a string literal after the opening
quote; decodes escapes, stops at the closing quote, fails at end of
input. -/
def readStringLoop : List Char → Except String (List Char × List Char)
  | [] => .error "lex: string literal not terminated"
  | c :: rest =>
    if c = '"' then .ok ([], rest)
    else if c = '\\' then
      match readEscape rest with
      | .error e => .error e
      | .ok (v, n) =>
        match readStringLoop (rest.drop n) with
        | .error e => .error e
        | .ok p => .ok (Char.ofNat (v % 256) :: p.1, p.2)
    else
      match readStringLoop rest with
      | .error e => .error e
      | .ok p => .ok (c :: p.1, p.2)
  termination_by l => l.length
  decreasing_by
    all_goals simp_all [List.length_cons, List.length_drop]
    all_goals omega

/-- Modelled from the spec: `lex.ReadString` (called with the opening `"`
still unconsumed). -/
def ReadString : List Char → Except String (String × List Char)
  | '"' :: rest =>
    match readStringLoop rest with
    | .error e => .error e
    | .ok p => .ok (String.mk p.1, p.2)
  | _ => .error "lex: string literal expected"

/-- Modelled from the spec: `lex.ReadChar` (called with the opening `'`
still unconsumed): one plain character or escape between single quotes;
the result is the character's integer value. -/
def ReadChar : List Char → Except String (Nat × List Char)
  | '\'' :: rest =>
    match rest with
    | [] => .error "lex: char literal not terminated"
    | c :: rest2 =>
      if c = '\\' then
        match readEscape rest2 with
        | .error e => .error e
        | .ok (v, n) =>
          match rest2.drop n with
          | '\'' :: rest3 => .ok (v, rest3)
          | _ => .error "lex: char literal not terminated"
      else if c = '\'' then .error "lex: empty char literal"
      else
        match rest2 with
        | '\'' :: rest3 => .ok (c.toNat, rest3)
        | _ => .error "lex: char literal not terminated"
  | _ => .error "lex: char literal expected"

/-- Modelled from the spec: `lex.ReadNumber` — lexes a pp-number via
`ReadPPNumber` (the numeric-value resolver is not among the given sources;
the spelling is kept as the token's value). -/
def ReadNumber (src : List Char) : Except String (String × List Char) :=
  ReadPPNumber src

def readIdentLoop : List Char → List Char × List Char
  | [] => ([], [])
  | c :: rest =>
    if isNondigit c || isDigit c then
      let p := readIdentLoop rest
      (c :: p.1, p.2)
    else ([], c :: rest)

/-- Modelled from the spec: `lex.ReadIdentifier` (spec §4.2) — a leading
nondigit, then a run of nondigits and digits. -/
def ReadIdentifier : List Char → Except String (String × List Char)
  | [] => .error "lex: identifier expected"
  | c :: rest =>
    if isNondigit c then
      let p := readIdentLoop rest
      .ok (String.mk (c :: p.1), p.2)
    else .error "lex: identifier expected"

/-- Modelled from the spec: the fixed keyword table (spec §3: "Keywords are
recognized at tokenization by looking up the identifier spelling in a fixed
table"); the C89/C99 keyword set, each mapped to its own token kind. -/
def cKeywords : List String :=
  ["auto", "break", "case", "char", "const", "continue", "default", "do",
   "double", "else", "enum", "extern", "float", "for", "goto", "if",
   "inline", "int", "long", "register", "restrict", "return", "short",
   "signed", "sizeof", "static", "struct", "switch", "typedef", "union",
   "unsigned", "void", "volatile", "while"]

/-- `token.KeywordToType` (its table is not among the given sources;
modelled from the spec as a fixed keyword table). -/
def KeywordToType (s : String) : Option TokenType :=
  if cKeywords.contains s then some (.keyword s) else none

/-! ## Tokenizer (src/internal/tokenize/tokenize.go) -/

/-- The `tokenizer` state: `ppstate` as documented on lines 31-36, plus the
whitespace-adjacency pair.  Go zero values give the initial state. -/
structure TokState where
  ppstate : Int := 0
  isSpace : Bool := false
  wasSpace : Bool := false
  deriving DecidableEq, Repr

def tokenizerInit : TokState := {}

/-- The whitespace byte class of tokenize.go line 104 (note that it
includes `'\n'`). -/
def spaceChars : List Char := [' ', '\t', '\x0B', '\x0C', '\r', '\n']

/-- Line comment body: consume up to and including the newline (or to end
of input), tokenize.go lines 166-181. -/
def skipLineComment : List Char → List Char
  | [] => []
  | '\n' :: rest => rest
  | _ :: rest => skipLineComment rest

/-- Block comment body: consume up to and including `*/`; fewer than two
bytes left before the terminator is an error, tokenize.go lines 182-199. -/
def skipBlockComment : List Char → Except String (List Char)
  | '*' :: '/' :: rest => .ok rest
  | [] => .error "tokenizer: unclosed block comment"
  | [_] => .error "tokenizer: unclosed block comment"
  | _ :: rest => skipBlockComment rest

/-- Tokenizer errors: `io.EOF` is distinguished from real errors, as in the
Go code. -/
inductive TokErr where
  | eof
  | msg (s : String)
  deriving DecidableEq, Repr

/-- The dispatch switch of `tokenizer.nextImpl` (tokenize.go lines
110-391): classify the head byte `b` and emit at most one token; `pp` is
the tokenizer's `ppstate`, consulted for header-name contexts. -/
def nextImplDispatch (pp : Int) (b : Char) (rest : List Char) : Except TokErr (Option Token × List Char) :=
  (if b = '\n' then .ok (some { type := .chr '\n' }, rest)
    else if spaceChars.contains b then .ok (none, rest)
    else if b = '+' then
      match rest with
      | '+' :: r2 => .ok (some { type := .inc }, r2)
      | '=' :: r2 => .ok (some { type := .addEq }, r2)
      | _ => .ok (some { type := .chr b }, rest)
    else if b = '-' then
      match rest with
      | '-' :: r2 => .ok (some { type := .dec }, r2)
      | '=' :: r2 => .ok (some { type := .subEq }, r2)
      | '>' :: r2 => .ok (some { type := .arrow }, r2)
      | _ => .ok (some { type := .chr b }, rest)
    else if b = '*' then
      match rest with
      | '=' :: r2 => .ok (some { type := .mulEq }, r2)
      | _ => .ok (some { type := .chr b }, rest)
    else if b = '/' then
      match rest with
      | '/' :: r2 => .ok (none, skipLineComment r2)
      | '*' :: r2 =>
        match skipBlockComment r2 with
        | .error e => .error (.msg e)
        | .ok r3 => .ok (none, r3)
      | '=' :: r2 => .ok (some { type := .divEq }, r2)
      | _ => .ok (some { type := .chr b }, rest)
    else if b = '%' then
      match rest with
      | '=' :: r2 => .ok (some { type := .modEq }, r2)
      | _ => .ok (some { type := .chr b }, rest)
    else if b = '=' then
      match rest with
      | '=' :: r2 => .ok (some { type := .eq }, r2)
      | _ => .ok (some { type := .chr b }, rest)
    else if b = '<' then
      if pp = 2 then
        match ReadHeaderName (b :: rest) with
        | .error e => .error (.msg e)
        | .ok (s, rem) => .ok (some { type := .headerName, stringValue := s }, rem)
      else
        match rest with
        | '<' :: '=' :: r3 => .ok (some { type := .shlEq }, r3)
        | '<' :: r2 => .ok (some { type := .shl }, r2)
        | _ => .ok (some { type := .chr b }, rest)
    else if b = '>' then
      match rest with
      | '>' :: '=' :: r3 => .ok (some { type := .shrEq }, r3)
      | '>' :: r2 => .ok (some { type := .shr }, r2)
      | _ => .ok (some { type := .chr b }, rest)
    else if b = '&' then
      match rest with
      | '&' :: r2 => .ok (some { type := .andAnd }, r2)
      | '=' :: r2 => .ok (some { type := .andEq }, r2)
      | _ => .ok (some { type := .chr b }, rest)
    else if b = '|' then
      match rest with
      | '|' :: r2 => .ok (some { type := .orOr }, r2)
      | '=' :: r2 => .ok (some { type := .orEq }, r2)
      | _ => .ok (some { type := .chr b }, rest)
    else if b = '!' then
      match rest with
      | '=' :: r2 => .ok (some { type := .ne }, r2)
      | _ => .ok (some { type := .chr b }, rest)
    else if b = '^' then
      match rest with
      | '=' :: r2 => .ok (some { type := .xorEq }, r2)
      | _ => .ok (some { type := .chr b }, rest)
    else if b = '\'' then
      match ReadChar (b :: rest) with
      | .error e => .error (.msg e)
      | .ok (n, rem) =>
        .ok (some { type := .numberLiteral, numberValue := toString n }, rem)
    else if b = '"' then
      if pp = 2 then
        match ReadHeaderName (b :: rest) with
        | .error e => .error (.msg e)
        | .ok (s, rem) => .ok (some { type := .headerName, stringValue := s }, rem)
      else
        match ReadString (b :: rest) with
        | .error e => .error (.msg e)
        | .ok (s, rem) => .ok (some { type := .stringLiteral, stringValue := s }, rem)
    else if b = '.' then
      match rest with
      | '.' :: '.' :: r3 => .ok (some { type := .dotDotDot }, r3)
      | d :: _ =>
        if isDigit d then
          match ReadNumber (b :: rest) with
          | .error e => .error (.msg e)
          | .ok (s, rem) => .ok (some { type := .numberLiteral, numberValue := s }, rem)
        else .ok (some { type := .chr b }, rest)
      | _ => .ok (some { type := .chr b }, rest)
    else if isDigit b then
      match ReadNumber (b :: rest) with
      | .error e => .error (.msg e)
      | .ok (s, rem) => .ok (some { type := .numberLiteral, numberValue := s }, rem)
    else if b = '#' then
      match rest with
      | '#' :: r2 => .ok (some { type := .hashHash }, r2)
      | _ => .ok (some { type := .chr b }, rest)
    else if [';', '(', ')', ',', '{', '}', '[', ']', '?', ':', '~'].contains b then
      .ok (some { type := .chr b }, rest)
    else if isNondigit b then
      match ReadIdentifier (b :: rest) with
      | .error e => .error (.msg e)
      | .ok (nm, rem) =>
        match KeywordToType nm with
        | some kt => .ok (some { type := kt }, rem)
        | none => .ok (some { type := .ident, name := nm }, rem)
    else .error (.msg ("tokenizer: invalid token: " ++ toString b)))

/-- `tokenizer.nextImpl` (tokenize.go lines 89-392): update the whitespace
flags from the head byte (lines 102-108), then run the dispatch switch.
`none` means "no token" (whitespace or comment).  The returned list is the
unconsumed remainder of the source. -/
def nextImpl (st : TokState) (src : List Char) : Except TokErr (Option Token × TokState × List Char) :=
  match src with
  | [] => .error .eof
  | b :: rest =>
    let st := { st with wasSpace := st.isSpace, isSpace := spaceChars.contains b }
    match nextImplDispatch st.ppstate b rest with
    | .error e => .error e
    | .ok (r, rem) => .ok (r, st, rem)

/-- The `ppstate` transition of `tokenizer.next` (tokenize.go lines
67-84), applied after a token is produced. -/
def ppStateStep (pp : Int) (tk : Token) : Int :=
  if tk.type = .chr '\n' then 0
  else if tk.type = .chr '#' then (if pp = 0 then 1 else -1)
  else if tk.type = .ident then (if pp = 1 ∧ tk.name = "include" then 2 else -1)
  else -1

/-- `tokenizer.next` (tokenize.go lines 48-87): loop `nextImpl` until a
token or an error appears, set the token's `Adjacent` flag from the
whitespace state, and update `ppstate`.  The loop is fuel-indexed; each
iteration consumes at least one byte, so `src.length + 1` fuel always
suffices. -/
def nextTok : Nat → TokState → List Char → Except TokErr (Token × TokState × List Char)
  | 0, _, _ => .error (.msg "tokenizer: out of fuel")
  | n + 1, st, src =>
    match nextImpl st src with
    | .error e => .error e
    | .ok (some tk, st', rest) =>
      let tk := { tk with adjacent := ! st'.wasSpace }
      .ok (tk, { st' with ppstate := ppStateStep st'.ppstate tk }, rest)
    | .ok (none, st', rest) => nextTok n st' rest

/-- `tokenizer.scan` main loop (tokenize.go lines 394-407): collect tokens
until EOF. -/
def scanLoop : Nat → TokState → List Char → Except String (List Token)
  | 0, _, _ => .error "tokenizer: out of fuel"
  | n + 1, st, src =>
    match nextTok (n + 1) st src with
    | .error .eof => .ok []
    | .error (.msg e) => .error e
    | .ok (tk, st', rest) =>
      match scanLoop n st' rest with
      | .error e => .error e
      | .ok ts => .ok (tk :: ts)

/-- `tokenizer.scan` (tokenize.go lines 394-413): the main loop, then a
trailing `'\n'` token is appended if the vector is empty or does not
already end with one. -/
def scan (st : TokState) (src : List Char) : Except String (List Token) :=
  match scanLoop (src.length + 2) st src with
  | .error e => .error e
  | .ok ts =>
    match ts.getLast? with
    | none => .ok (ts ++ [{ type := .chr '\n' }])
    | some last =>
      if last.type = .chr '\n' then .ok ts
      else .ok (ts ++ [{ type := .chr '\n' }])

/-- Modelled from the spec: `ioutil.NewBackslashNewLineStripper`
(spec §4.1) — remove every `\` immediately followed by `\n`; a lone `\`
at end of input is passed through. -/
def stripBackslashNewLine : List Char → List Char
  | [] => []
  | '\\' :: '\n' :: rest => stripBackslashNewLine rest
  | c :: rest => c :: stripBackslashNewLine rest

/-- `Tokenize` (tokenize.go lines 442-453): scan the line-spliced
source. -/
def Tokenize (src : List Char) : Except String (List Token) :=
  scan tokenizerInit (stripBackslashNewLine src)

/-- `stripNewLineTokens` (tokenize.go lines 415-424). -/
def stripNewLineTokens (tokens : List Token) : List Token :=
  tokens.filter (fun t => ¬ t.type = .chr '\n')

/-- The loop body of `joinStringLiterals` (tokenize.go lines 426-440).  The
Go loop keeps an output vector and merges each string literal into the
vector's last element when both are string literals; `cur` is that last
element, not yet committed to the output. -/
def joinSLAux (cur : Token) : List Token → List Token
  | [] => [cur]
  | t :: rest =>
    if cur.type = .stringLiteral ∧ t.type = .stringLiteral then
      joinSLAux { cur with stringValue := cur.stringValue ++ t.stringValue } rest
    else
      cur :: joinSLAux t rest

/-- `joinStringLiterals` (tokenize.go lines 426-440): concatenate runs of
adjacent string literal tokens. -/
def joinStringLiterals : List Token → List Token
  | [] => []
  | t :: rest => joinSLAux t rest

/-- `FinishTokenize` (tokenize.go lines 456-460). -/
def FinishTokenize (tokens : List Token) : List Token :=
  joinStringLiterals (stripNewLineTokens tokens)

/-! ## Preprocessor readers (src/internal/literal/ppnumber.go, package preprocess) -/

def eofToken : Token := { type := .eof }

/-- `ppTokenBufReader.NextPPToken` (lines 117-126): past the end, an `EOF`
token is returned and the position does not advance. -/
def ppTokenBufReaderNextPPToken (tokens : List Token) (pos : Nat) : Token × Nat :=
  if pos ≥ tokens.length then (eofToken, pos)
  else (tokens.getD pos eofToken, pos + 1)

/-- `ppTokenSliceReader.NextPPToken` (lines 152-161). -/
def ppTokenSliceReaderNextPPToken (tokens : List Token) (pos : Nat) : Token × Nat :=
  if tokens.length ≤ pos then (eofToken, pos)
  else (tokens.getD pos eofToken, pos + 1)

/-- `ppTokenBufReader.peekPPToken` (lines 128-135). -/
def ppTokenBufReaderPeek (tokens : List Token) (pos : Nat) : Token :=
  if pos ≥ tokens.length then eofToken else tokens.getD pos eofToken

/-- `ppTokenBufReader.AtLineHead` (lines 137-145). -/
def AtLineHead (tokens : List Token) (pos : Nat) : Bool :=
  if pos = 0 then true
  else (tokens.getD (pos - 1) eofToken).type = .chr '\n'

/-! ## Macro data model and helpers -/

/-- The `macro` record (constructed on lines 389-393; `paramsLen` is `-1`
for object-like macros). -/
structure Macro where
  name : String
  tokens : List Token
  paramsLen : Int
  deriving DecidableEq, Repr

/-- Go map lookup over an association list. -/
def mapLookup {α : Type} (m : List (String × α)) (k : String) : Option α :=
  match m.find? (fun e => e.1 == k) with
  | none => none
  | some e => some e.2

/-- Go map `delete` over an association list. -/
def mapErase {α : Type} (m : List (String × α)) (k : String) : List (String × α) :=
  m.filter (fun e => ¬ e.1 == k)

/-- Go map assignment over an association list (silent overwrite). -/
def mapInsert {α : Type} (m : List (String × α)) (k : String) (v : α) : List (String × α) :=
  (k, v) :: mapErase m k

/-- Modelled from the spec: `nextExpected` (used by the directive parsers;
its code is not among the given sources) — read the next pp-token from the
source reader and fail unless its kind is among the expected ones. -/
def nextExpected (tokens : List Token) (pos : Nat) (expected : List TokenType) : Except String (Token × Nat) :=
  let r := ppTokenBufReaderNextPPToken tokens pos
  if expected.contains r.1.type then .ok r
  else .error "preprocess: unexpected token"

/-- The "read tokens up to the next newline" loop (the `define` body loop,
lines 324-334, and the `error` directive loop, lines 443-453).  The Go
loop relies on the newline sentinel: at end of input the reader returns
`EOF` tokens forever without advancing, so the loop never terminates;
running out of fuel (`none`) models that divergence. -/
def collectLineTokens : Nat → List Token → Nat → Option (List Token × Nat)
  | 0, _, _ => none
  | n + 1, tokens, pos =>
    let r := ppTokenBufReaderNextPPToken tokens pos
    if r.1.type = .chr '\n' then some ([], r.2)
    else
      match collectLineTokens n tokens r.2 with
      | none => none
      | some (ts, pos') => some (r.1 :: ts, pos')

/-- The parameter-list loop of `define` (lines 306-320): identifiers
separated by commas, terminated by `)`. -/
def parseDefineParams : Nat → List Token → Nat → Option (Except String (List String × Nat))
  | 0, _, _ => none
  | n + 1, tokens, pos =>
    match nextExpected tokens pos [.ident] with
    | .error e => some (.error e)
    | .ok (t, pos1) =>
      match nextExpected tokens pos1 [.chr ')', .chr ','] with
      | .error e => some (.error e)
      | .ok (t2, pos2) =>
        if t2.type = .chr ')' then some (.ok ([t.val], pos2))
        else
          match parseDefineParams n tokens pos2 with
          | none => none
          | some (.error e) => some (.error e)
          | some (.ok (ps, pos')) => some (.ok (t.val :: ps, pos'))

/-- The body rewrite of `define` for function-like macros (lines 336-387):
`#` followed by a parameter name becomes a stringizing `Param` token, a
bare parameter name becomes a `Param` token, and `#` not followed by a
macro parameter is an error. -/
def rewriteDefineBody (params : List String) : List Token → Except String (List Token)
  | [] => .ok []
  | t :: rest =>
    if t.type = .chr '#' then
      match rest with
      | [] => .error "preprocess: '#' is not followed by a macro parameter"
      | t2 :: rest2 =>
        if t2.type = .ident then
          match params.findIdx? (fun q => q == t2.val) with
          | some idx =>
            match rewriteDefineBody params rest2 with
            | .error e => .error e
            | .ok ts => .ok ({ type := .param, paramIndex := idx, paramHash := true } :: ts)
          | none => .error "preprocess: '#' is not followed by a macro parameter"
        else .error "preprocess: '#' is not followed by a macro parameter"
    else if t.type = .ident then
      match params.findIdx? (fun q => q == t.val) with
      | some idx =>
        match rewriteDefineBody params rest with
        | .error e => .error e
        | .ok ts => .ok ({ type := .param, paramIndex := idx } :: ts)
      | none =>
        match rewriteDefineBody params rest with
        | .error e => .error e
        | .ok ts => .ok (t :: ts)
    else
      match rewriteDefineBody params rest with
      | .error e => .error e
      | .ok ts => .ok (t :: ts)

/-- The `define` directive (lines 278-393): macro name, optional adjacent
parameter list, body up to the newline, body rewrite for function-like
macros.  Returns the completed `Macro` and the new source position. -/
def parseDefine (fuel : Nat) (tokens : List Token) (pos : Nat) : Option (Except String (Macro × Nat)) :=
  match nextExpected tokens pos [.ident] with
  | .error e => some (.error e)
  | .ok (t, pos1) =>
    let nm := t.val
    let peeked := ppTokenBufReaderPeek tokens pos1
    let paramsRes : Option (Except String (Option (List String) × Nat)) :=
      if peeked.type = .chr '(' ∧ peeked.adjacent then
        let pos2 := (ppTokenBufReaderNextPPToken tokens pos1).2
        let peeked2 := ppTokenBufReaderPeek tokens pos2
        if peeked2.type = .chr ')' then
          some (.ok (some [], (ppTokenBufReaderNextPPToken tokens pos2).2))
        else
          match parseDefineParams fuel tokens pos2 with
          | none => none
          | some (.error e) => some (.error e)
          | some (.ok (ps, pos')) => some (.ok (some ps, pos'))
      else some (.ok (none, pos1))
    match paramsRes with
    | none => none
    | some (.error e) => some (.error e)
    | some (.ok (params?, pos2)) =>
      match collectLineTokens fuel tokens pos2 with
      | none => none
      | some (body, pos3) =>
        match params? with
        | none => some (.ok ({ name := nm, tokens := body, paramsLen := -1 }, pos3))
        | some ps =>
          match rewriteDefineBody ps body with
          | .error e => some (.error e)
          | .ok body' =>
            some (.ok ({ name := nm, tokens := body', paramsLen := (ps.length : Int) }, pos3))

/-! ## Macro application (spec §4.5; `Macro.apply` is not among the given
sources and is modelled from the spec) -/

/-- Modelled from the spec: the textual spelling of a token (spec §9,
"Stringization detail"): punctuators spell as their characters, keywords
and identifiers as their names, literals as their source text. -/
def TokenType.spelling : TokenType → String
  | .chr c => String.mk [c]
  | .inc => "++"
  | .dec => "--"
  | .arrow => "->"
  | .addEq => "+="
  | .subEq => "-="
  | .mulEq => "*="
  | .divEq => "/="
  | .modEq => "%="
  | .eq => "=="
  | .ne => "!="
  | .shl => "<<"
  | .shr => ">>"
  | .shlEq => "<<="
  | .shrEq => ">>="
  | .andAnd => "&&"
  | .orOr => "||"
  | .andEq => "&="
  | .orEq => "|="
  | .xorEq => "^="
  | .dotDotDot => "..."
  | .hashHash => "##"
  | .keyword s => s
  | _ => ""

/-- Modelled from the spec: doubling of `"` and `\` for stringization
(spec §4.5). -/
def escapeForStringize (s : String) : String :=
  String.mk (s.toList.foldr (fun c acc => if c = '"' || c = '\\' then '\\' :: c :: acc else c :: acc) [])

def tokenSpelling (t : Token) : String :=
  match t.type with
  | .ident => t.name
  | .numberLiteral => t.numberValue
  | .stringLiteral => "\"" ++ escapeForStringize t.stringValue ++ "\""
  | .headerName => t.stringValue
  | _ => t.type.spelling

/-- Modelled from the spec: stringization of an argument's unexpanded
tokens — spellings joined by single spaces (spec §4.5). -/
def stringizeTokens (ts : List Token) : String :=
  String.intercalate " " (ts.map tokenSpelling)

/-- Modelled from the spec: the diagnostic string of a pp-token (the Go
`Token.String`, used by the `error` directive; not among the given
sources). -/
def tokenErrString (t : Token) : String :=
  match t.type with
  | .numberLiteral => "number: " ++ t.numberValue
  | .stringLiteral => "string: " ++ t.stringValue
  | .ident => "ident: " ++ t.name
  | _ => t.type.spelling

/-- Modelled from the spec: `##` re-lexes the concatenated spelling into a
single token (spec §4.5); a spelling that does not lex to exactly one
pp-token is a malformed concatenation. -/
def relexToken (s : String) : Except String Token :=
  match scan tokenizerInit s.toList with
  | .error e => .error e
  | .ok ts =>
    match stripNewLineTokens ts with
    | [t] => .ok t
    | _ => .error ("preprocess: invalid concatenation: " ++ s)

/-- Union a token's `expanded_from` set with the given names (spec §4.5:
"All resulting tokens have their `expanded_from` extended by the caller
set and this macro's name"). -/
def extendExpandedFrom (names : List String) (t : Token) : Token :=
  { t with expandedFrom := (names ++ t.expandedFrom).dedup }

/-- Modelled from the spec: read one function-like macro argument
(spec §4.5): tokens up to the next top-level `,` or `)`, respecting nested
parenthesis balance.  Returns the argument, whether it ended at `)`
(`true`) or `,` (`false`), and the number of tokens consumed including the
delimiter; running out of tokens is an error. -/
def parseOneArg (depth : Nat) : List Token → Except String (List Token × Bool × Nat)
  | [] => .error "preprocess: unexpected EOF in macro arguments"
  | t :: rest =>
    if depth = 0 ∧ t.type = .chr ')' then .ok ([], true, 1)
    else if depth = 0 ∧ t.type = .chr ',' then .ok ([], false, 1)
    else if t.type = .chr '(' then
      match parseOneArg (depth + 1) rest with
      | .error e => .error e
      | .ok (arg, c, k) => .ok (t :: arg, c, k + 1)
    else if t.type = .chr ')' then
      match parseOneArg (depth - 1) rest with
      | .error e => .error e
      | .ok (arg, c, k) => .ok (t :: arg, c, k + 1)
    else
      match parseOneArg depth rest with
      | .error e => .error e
      | .ok (arg, c, k) => .ok (t :: arg, c, k + 1)

/-- Modelled from the spec: the argument-reading loop — one argument per
top-level comma until the closing parenthesis. -/
def parseArgsLoop : Nat → List Token → Option (Except String (List (List Token) × Nat))
  | 0, _ => none
  | n + 1, ts =>
    match parseOneArg 0 ts with
    | .error e => some (.error e)
    | .ok (arg, isClose, k) =>
      if isClose then some (.ok ([arg], k))
      else
        match parseArgsLoop n (ts.drop k) with
        | none => none
        | some (.error e) => some (.error e)
        | some (.ok (args, k2)) => some (.ok (arg :: args, k + k2))

/-- Modelled from the spec: all arguments of a function-like macro call,
starting just after the opening parenthesis; `NAME()` has zero
arguments. -/
def parseAllArgs (ts : List Token) : Option (Except String (List (List Token) × Nat)) :=
  match ts with
  | [] => some (.error "preprocess: unexpected EOF in macro arguments")
  | t :: _ =>
    if t.type = .chr ')' then some (.ok ([], 1))
    else parseArgsLoop (ts.length + 1) ts

/-- Modelled from the spec: walk the macro body replacing `Param` tokens —
a stringizing `Param` becomes a string literal of the unexpanded argument,
a plain `Param` splices the pre-expanded argument (spec §4.5). -/
def substituteBody (rawArgs expArgs : List (List Token)) : List Token → List Token
  | [] => []
  | t :: rest =>
    if t.type = .param then
      if t.paramHash then
        { type := .stringLiteral, stringValue := stringizeTokens (rawArgs.getD t.paramIndex []) }
          :: substituteBody rawArgs expArgs rest
      else expArgs.getD t.paramIndex [] ++ substituteBody rawArgs expArgs rest
    else t :: substituteBody rawArgs expArgs rest

/-- Modelled from the spec: the `##` pass — each `##` concatenates the
spellings of its neighbors into a single re-lexed token (spec §4.5). -/
def hashHashPass : List Token → Except String (List Token)
  | [] => .ok []
  | [t] => .ok [t]
  | a :: b :: rest =>
    if b.type = .hashHash then
      match _h : rest with
      | [] => .error "preprocess: '##' at end of replacement list"
      | c :: rest2 =>
        match relexToken (tokenSpelling a ++ tokenSpelling c) with
        | .error e => .error e
        | .ok t' => hashHashPass (t' :: rest2)
    else
      match hashHashPass (b :: rest) with
      | .error e => .error e
      | .ok ts => .ok (a :: ts)
  termination_by l => l.length
  decreasing_by all_goals (simp_all [List.length_cons]; try omega)

/-! ## The expansion engine (preprocessor.next / NextPPToken, lines
172-494, with `Macro.apply` modelled from spec §4.5).

All recursion is fuel-indexed; `none` is fuel exhaustion.  Termination
(existence of sufficient fuel) is proved later. -/

/-- The preprocessor state (the `preprocessor` struct, lines 172-180).
`src = none` is the Go nil reader before the lazy first-use
initialization; otherwise it is the `ppTokenBufReader` (tokens and
cursor). -/
structure PPState where
  path : String
  tokMap : List (String × List Token)
  src : Option (List Token × Nat)
  sub : List Token
  visited : List String
  macros : List (String × Macro)
  deriving Repr

/-- `preprocessImpl` (lines 487-494): note the fresh empty macro table of
every (nested) preprocessor. -/
def preprocessImpl (path : String) (tokMap : List (String × List Token))
    (visited : List String) : PPState :=
  { path := path, tokMap := tokMap, src := none, sub := [], visited := visited, macros := [] }

mutual

/-- Modelled from the spec: `Macro.apply` (spec §4.5).  Object-like: clone
the replacement list and extend each clone's `expanded_from` with the
caller set and the macro name.  Function-like: if the next token is not
`(` the identifier does not expand and is returned as an ordinary
identifier (with `expanded_from` extended, per "All resulting tokens have
their `expanded_from` extended by the caller set and this macro's name";
this also makes the returned identifier painted and is what the spec means
by "observable via rescanning"); otherwise read the arguments, pre-expand
each by rescanning against the current table without the self-reference
name added, substitute into the body (stringizing where marked), process
`##`, and extend every resulting token's `expanded_from`.  Returns the
result tokens and how many tokens of `ahead` were consumed. -/
def applyM : Nat → List (String × Macro) → Macro → List String → List Token →
    Option (Except String (List Token × Nat))
  | 0, _, _, _, _ => none
  | n + 1, macros, m, callerEF, ahead =>
    if m.paramsLen < 0 then
      some (.ok (m.tokens.map (extendExpandedFrom (m.name :: callerEF)), 0))
    else
      match ahead with
      | [] =>
        some (.ok ([extendExpandedFrom (m.name :: callerEF) { type := .ident, name := m.name }], 0))
      | t :: rest =>
        if t.type = .chr '(' then
          match parseAllArgs rest with
          | none => none
          | some (.error e) => some (.error e)
          | some (.ok (args, k)) =>
            if (args.length : Int) = m.paramsLen then
              match expandArgs n macros args with
              | none => none
              | some (.error e) => some (.error e)
              | some (.ok expArgs) =>
                match hashHashPass (substituteBody args expArgs m.tokens) with
                | .error e => some (.error e)
                | .ok outs =>
                  some (.ok (outs.map (extendExpandedFrom (m.name :: callerEF)), k + 1))
            else some (.error "preprocess: wrong number of macro arguments")
        else
          some (.ok ([extendExpandedFrom (m.name :: callerEF) { type := .ident, name := m.name }], 0))

/-- Modelled from the spec: pre-expansion of the arguments — each argument
is rescanned through the expansion engine against the current macro table
(spec §4.5). -/
def expandArgs : Nat → List (String × Macro) → List (List Token) →
    Option (Except String (List (List Token)))
  | 0, _, _ => none
  | _ + 1, _, [] => some (.ok [])
  | n + 1, macros, a :: rest =>
    match expandList n macros a with
    | none => none
    | some (.error e) => some (.error e)
    | some (.ok ea) =>
      match expandArgs n macros rest with
      | none => none
      | some (.error e) => some (.error e)
      | some (.ok eas) => some (.ok (ea :: eas))

/-- Rescanning of a token list to exhaustion: the sub-queue discipline of
`preprocessor.next` (lines 210-241) applied until the list is empty.  A
head identifier that names a macro and is not painted is applied (reading
its arguments from the rest of the list) and the result is spliced back on
the front for further rescanning; every other head is emitted. -/
def expandList : Nat → List (String × Macro) → List Token →
    Option (Except String (List Token))
  | 0, _, _ => none
  | _ + 1, _, [] => some (.ok [])
  | n + 1, macros, t :: rest =>
    if t.type = .ident then
      match mapLookup macros t.val with
      | none =>
        match expandList n macros rest with
        | none => none
        | some (.error e) => some (.error e)
        | some (.ok ts) => some (.ok (t :: ts))
      | some m =>
        if t.expandedFrom.contains m.name then
          match expandList n macros rest with
          | none => none
          | some (.error e) => some (.error e)
          | some (.ok ts) => some (.ok (t :: ts))
        else
          match applyM n macros m t.expandedFrom rest with
          | none => none
          | some (.error e) => some (.error e)
          | some (.ok (tks, k)) => expandList n macros (tks ++ rest.drop k)
    else
      match expandList n macros rest with
      | none => none
      | some (.error e) => some (.error e)
      | some (.ok ts) => some (.ok (t :: ts))

end

mutual

/-- `preprocessor.next` (lines 209-465).  First the pending `sub` queue:
a non-identifier, an identifier that names no macro, or a painted
identifier is emitted; otherwise the macro is applied with the rest of
`sub` as its argument source and the result is spliced back.  With `sub`
empty, one token is read from the source reader: an identifier naming a
macro starts an expansion (arguments read from the source), a line-initial
`#` dispatches a directive, everything else is returned. -/
def ppNext : Nat → PPState → Option (Except String (Option Token × PPState))
  | 0, _ => none
  | n + 1, p =>
    match p.sub with
    | t :: rest =>
      if t.type = .ident then
        match mapLookup p.macros t.val with
        | none => some (.ok (some t, { p with sub := rest }))
        | some m =>
          if t.expandedFrom.contains m.name then
            some (.ok (some t, { p with sub := rest }))
          else
            match applyM n p.macros m t.expandedFrom rest with
            | none => none
            | some (.error e) => some (.error e)
            | some (.ok (tks, k)) =>
              some (.ok (none, { p with sub := tks ++ rest.drop k }))
      else some (.ok (some t, { p with sub := rest }))
    | [] =>
      match p.src with
      | none => some (.error "preprocess: source is not initialized")
      | some (toks, pos) =>
        let wasLineHead := AtLineHead toks pos
        let r := ppTokenBufReaderNextPPToken toks pos
        let t := r.1
        let pos1 := r.2
        if t.type = .ident then
          match mapLookup p.macros t.val with
          | none => some (.ok (some t, { p with src := some (toks, pos1) }))
          | some m =>
            match applyM n p.macros m [] (toks.drop pos1) with
            | none => none
            | some (.error e) => some (.error e)
            | some (.ok (tks, k)) =>
              some (.ok (none, { p with src := some (toks, pos1 + k), sub := tks }))
        else if t.type = .chr '#' then
          if ¬ wasLineHead then some (.ok (some t, { p with src := some (toks, pos1) }))
          else
            let r2 := ppTokenBufReaderNextPPToken toks pos1
            let t2 := r2.1
            let pos2 := r2.2
            if t2.type = .chr '\n' then
              some (.ok (some t2, { p with src := some (toks, pos2) }))
            else if t2.type = .ident then
              if t2.val = "define" then
                match parseDefine n toks pos2 with
                | none => none
                | some (.error e) => some (.error e)
                | some (.ok (mac, pos3)) =>
                  some (.ok (none, { p with src := some (toks, pos3),
                                            macros := mapInsert p.macros mac.name mac }))
              else if t2.val = "undef" then
                match nextExpected toks pos2 [.ident] with
                | .error e => some (.error e)
                | .ok (t3, pos3) =>
                  match nextExpected toks pos3 [.chr '\n'] with
                  | .error e => some (.error e)
                  | .ok (_, pos4) =>
                    some (.ok (none, { p with src := some (toks, pos4),
                                              macros := mapErase p.macros t3.val }))
              else if t2.val = "include" then
                match nextExpected toks pos2 [.headerName] with
                | .error e => some (.error e)
                | .ok (t3, pos3) =>
                  let path := t3.val
                  if p.visited.contains path then
                    some (.error ("preprocess: recursive #include: " ++ path))
                  else
                    match ppDrain n (preprocessImpl path p.tokMap (path :: p.visited)) with
                    | none => none
                    | some (.error e) => some (.error e)
                    | some (.ok (ts, q)) =>
                      some (.ok (none, { p with src := some (toks, pos3), sub := ts,
                                                visited := q.visited }))
              else if t2.val = "if" then some (.error "preprocess: #if is not implemented")
              else if t2.val = "ifdef" then some (.error "preprocess: #ifdef is not implemented")
              else if t2.val = "ifndef" then some (.error "preprocess: #ifndef is not implemented")
              else if t2.val = "else" then some (.error "preprocess: #else is not implemented")
              else if t2.val = "endif" then some (.error "preprocess: #line is not implemented")
              else if t2.val = "line" then some (.error "preprocess: #line is not implemented")
              else if t2.val = "elif" then some (.error "preprocess: #elif is not implemented")
              else if t2.val = "pragma" then some (.error "preprocess: #pragma is not implemented")
              else if t2.val = "error" then
                match collectLineTokens n toks pos2 with
                | none => none
                | some (ts, _) =>
                  some (.error ("preprocess: #error"
                    ++ String.join (ts.map (fun tk => " " ++ tokenErrString tk))))
              else
                some (.error ("preprocess: invalid preprocessing directive " ++ t2.val))
            else some (.error "preprocess: expected identifier after directive hash")
        else some (.ok (some t, { p with src := some (toks, pos1) }))

/-- `preprocessor.NextPPToken` (lines 182-207): lazy source
initialization, then loop `next` until it yields a token, discarding
newline tokens. -/
def ppNextPPToken : Nat → PPState → Option (Except String (Token × PPState))
  | 0, _ => none
  | n + 1, p =>
    match p.src with
    | none =>
      match mapLookup p.tokMap p.path with
      | none => some (.error ("preprocess: file not found: " ++ p.path))
      | some ts => ppNextPPToken n { p with src := some (ts, 0) }
    | some _ =>
      match ppNext n p with
      | none => none
      | some (.error e) => some (.error e)
      | some (.ok (none, p')) => ppNextPPToken n p'
      | some (.ok (some t, p')) =>
        if t.type = .chr '\n' then ppNextPPToken n p'
        else some (.ok (t, p'))

/-- The drain-to-EOF loop (the `include` case, lines 414-424, and
`Preprocess`, lines 473-483). -/
def ppDrain : Nat → PPState → Option (Except String (List Token × PPState))
  | 0, _ => none
  | n + 1, p =>
    match ppNextPPToken n p with
    | none => none
    | some (.error e) => some (.error e)
    | some (.ok (t, p')) =>
      if t.type = .eof then some (.ok ([], p'))
      else
        match ppDrain n p' with
        | none => none
        | some (.error e) => some (.error e)
        | some (.ok (ts, q)) => some (.ok (t :: ts, q))

end

/-- `Preprocess` (lines 467-485): drain a preprocessor whose visited set
is seeded with the starting path; the `stringConcatter` wrapper (not among
the given sources) is modelled per spec §4.7 as concatenation of adjacent
string literals over the drained stream. -/
def Preprocess (fuel : Nat) (path : String) (tokMap : List (String × List Token)) :
    Option (Except String (List Token)) :=
  match ppDrain fuel (preprocessImpl path tokMap [path]) with
  | none => none
  | some (.error e) => some (.error e)
  | some (.ok (ts, _)) => some (.ok (joinStringLiterals ts))

/-! ## Auxiliary definitions used by the verification statements -/

/-- The result of the `k`-th further call to `ppTokenBufReader.NextPPToken`
after position `pos` (call 0 is the call at `pos` itself). -/
def readBufN : Nat → List Token → Nat → Token × Nat
  | 0, tokens, pos => ppTokenBufReaderNextPPToken tokens pos
  | n + 1, tokens, pos => readBufN n tokens (ppTokenBufReaderNextPPToken tokens pos).2

/-- Does the byte list start with a sign byte `+` or `-`. -/
def headIsSign : List Char → Bool
  | c :: _ => c = '+' || c = '-'
  | [] => false

/-- The token vector ends with a `Newline` token (the tokenizer's newline
sentinel). -/
def newlineTerminated (ts : List Token) : Prop :=
  ts.getLast?.map Token.type = some (.chr '\n')

/-! ## Termination measure for the expansion engine

A token's measure is the number of macro names of the table not yet in its
`expanded_from` set; applying a macro strictly decreases the measure of
every produced token.  A queue of tokens is measured by the vector of its
per-measure counts, most significant (largest measure) first, compared
lexicographically. -/

/-- The names of the macros in a table (the `name` fields of its values). -/
def macroNames (macros : List (String × Macro)) : Finset String :=
  (macros.map (fun e => e.2.name)).toFinset

/-- How many macro names of `N` are not yet in the token's painted set. -/
def tokenMeasure (N : Finset String) (t : Token) : Nat :=
  (N \ t.expandedFrom.toFinset).card

/-- The number of tokens of measure `k` in a queue. -/
def msrCount (N : Finset String) (k : Nat) (ts : List Token) : Nat :=
  (ts.filter (fun t => tokenMeasure N t == k)).length

/-- The count vector of a queue, indexed from measure `N.card` down to
measure `0`. -/
def msrVec (N : Finset String) (ts : List Token) : List Nat :=
  (List.range (N.card + 1)).map (fun i => msrCount N (N.card - i) ts)

/-- Lexicographic order on count vectors of equal length, most significant
entry first. -/
inductive VecLt : List Nat → List Nat → Prop
  | head {a b : Nat} {as bs : List Nat} :
      a < b → as.length = bs.length → VecLt (a :: as) (b :: bs)
  | tail {a : Nat} {as bs : List Nat} : VecLt as bs → VecLt (a :: as) (a :: bs)

/-- The sub-queue order used for the rescanning termination argument. -/
def SubQueueLt (macros : List (String × Macro)) (ts' ts : List Token) : Prop :=
  VecLt (msrVec (macroNames macros) ts') (msrVec (macroNames macros) ts)

/-- Tokens left to read in the source reader (zero for the uninitialized
reader). -/
def srcRem (p : PPState) : Nat :=
  match p.src with
  | some (toks, pos) => toks.length - pos
  | none => 0

/-- The per-preprocessor progress measure: source tokens left, then the
sub-queue count vector. -/
def stateMeasure (p : PPState) : Nat × List Nat :=
  (srcRem p, msrVec (macroNames p.macros) p.sub)

/-- Strict progress between preprocessor states. -/
def StateLt (p' p : PPState) : Prop :=
  Prod.Lex (· < ·) VecLt (stateMeasure p') (stateMeasure p)

/-- How many paths of the token map are not yet on the include stack. -/
def unvisitedCount (p : PPState) : Nat :=
  ((p.tokMap.map (fun e => e.1)).toFinset \ p.visited.toFinset).card

/-- The fuel-indexed interpreter never returns on this state: at every
fuel the call is still running (`none`). -/
def NeverReturns (p : PPState) : Prop :=
  ∀ n, ppNextPPToken n p = none

/-- A well-formed preprocessor state: every token vector of the
translation-unit map and the current source vector end in the newline
sentinel (which `Tokenize` guarantees for its outputs). -/
def GoodState (p : PPState) : Prop :=
  (∀ e ∈ p.tokMap, newlineTerminated e.2) ∧
  (∀ toks pos, p.src = some (toks, pos) → newlineTerminated toks)

/-! # Theorems -/

/-! ## C9: end of input at the pp-token readers -/

/-- **C9** (confirmed): when a pp-token reader's position is at or past the
end of its token list, `NextPPToken` returns a token of type `EOF` and the
position does not advance, so every subsequent call also returns `EOF`.
The embedded readers return no error value at all, matching the Go readers
whose error result is always nil: end of input never surfaces as an
error. -/
theorem ppReaders_eof_at_end (tokens : List Token) (pos : Nat)
    (h : tokens.length ≤ pos) :
    ppTokenBufReaderNextPPToken tokens pos = (eofToken, pos) ∧
    ppTokenSliceReaderNextPPToken tokens pos = (eofToken, pos) ∧
    (∀ k, readBufN k tokens pos = (eofToken, pos)) := by
  refine ⟨?_, ?_, ?_⟩
  · simp [ppTokenBufReaderNextPPToken, h]
  · simp [ppTokenSliceReaderNextPPToken, h]
  · intro k
    induction k with
    | zero => simp [readBufN, ppTokenBufReaderNextPPToken, h]
    | succ n ih => simpa [readBufN, ppTokenBufReaderNextPPToken, h] using ih

/-- Witness for C9 at a concrete reader. -/
theorem ppReaders_eof_at_end_witness :
    ppTokenBufReaderNextPPToken [eofToken] 3 = (eofToken, 3) ∧
    readBufN 2 [eofToken] 3 = (eofToken, 3) :=
  ⟨(ppReaders_eof_at_end [eofToken] 3 (by decide)).1,
   (ppReaders_eof_at_end [eofToken] 3 (by decide)).2.2 2⟩

/-! ## C5: the newline sentinel -/

/-- **C5** (confirmed): for every byte input on which tokenization
succeeds, the output vector is non-empty and its last token is `Newline`;
the sentinel is appended whenever the scanned tokens do not already end
with one, including for empty input. -/
theorem tokenize_ends_with_newline (src : List Char) (ts : List Token)
    (h : Tokenize src = .ok ts) :
    ts ≠ [] ∧ ts.getLast?.map Token.type = some (.chr '\n') := by
  unfold Tokenize scan at h
  cases hl : scanLoop ((stripBackslashNewLine src).length + 2) tokenizerInit
      (stripBackslashNewLine src) with
  | error e => rw [hl] at h; exact absurd h (by simp)
  | ok ts0 =>
    rw [hl] at h
    cases hlast : ts0.getLast? with
    | none =>
      simp only [hlast] at h
      cases h
      simp
    | some last =>
      simp only [hlast] at h
      by_cases hnl : last.type = .chr '\n'
      · rw [if_pos hnl] at h
        cases h
        constructor
        · intro hnil; rw [hnil] at hlast; simp at hlast
        · rw [hlast]; simp [hnl]
      · rw [if_neg hnl] at h
        cases h
        simp

/-- Witness for C5 on the empty input. -/
theorem tokenize_ends_with_newline_witness :
    ([{ type := TokenType.chr '\n' }] : List Token) ≠ [] ∧
    ([{ type := TokenType.chr '\n' }] : List Token).getLast?.map Token.type
      = some (.chr '\n') :=
  tokenize_ends_with_newline [] [{ type := TokenType.chr '\n' }] (by rfl)

/-! ## C10: the adjacency flag of the first token -/

/-- **C10** counterexample: on the input `" ;"`, which starts with a
whitespace byte, the first token the tokenizer emits is the `';'`
punctuator with `Adjacent = false` — so it is not the case that for every
input the first emitted token has `Adjacent = true`. -/
theorem first_token_after_space_not_adjacent :
    Tokenize " ;".toList =
      .ok [{ type := .chr ';' }, { type := .chr '\n' }] ∧
    ({ type := TokenType.chr ';' } : Token).adjacent = false := by
  exact ⟨by rfl, by rfl⟩

/-- **C10** (amended): the adjacency flag is computed from a was-space flag
whose initial value is `false`, so whenever the tokenizer's very first
`nextImpl` step on an input emits a token — that is, the input starts
directly with a token, with no whitespace byte or comment before it — that
first token is marked adjacent. -/
theorem first_token_adjacent (n : Nat) (src : List Char) (tk : Token)
    (st' : TokState) (rest : List Char)
    (h : nextImpl tokenizerInit src = .ok (some tk, st', rest)) :
    ∃ st2, nextTok (n + 1) tokenizerInit src =
      .ok ({ tk with adjacent := true }, st2, rest) := by
  have hws : st'.wasSpace = false := by
    cases src with
    | nil => simp [nextImpl] at h
    | cons b rest0 =>
      simp only [nextImpl] at h
      cases hd : nextImplDispatch tokenizerInit.ppstate b rest0 with
      | error e => rw [hd] at h; exact absurd h (by simp)
      | ok pr =>
        obtain ⟨r, rem⟩ := pr
        rw [hd] at h
        simp only [Except.ok.injEq, Prod.mk.injEq] at h
        obtain ⟨h3, h4, h5⟩ := h
        rw [← h4]
        rfl
  refine ⟨{ st' with ppstate := ppStateStep st'.ppstate { tk with adjacent := true } }, ?_⟩
  simp [nextTok, h, hws]

/-- Witness for C10 (amended) on the input `";"`. -/
theorem first_token_adjacent_witness :
    ∃ st2, nextTok 1 tokenizerInit [';'] =
      .ok ({ type := TokenType.chr ';', adjacent := true }, st2, []) :=
  first_token_adjacent 0 [';'] { type := TokenType.chr ';' } _ [] (by rfl)

/-! ## C3: the painted-blue rule -/

/-- **C3** (confirmed): when the head of the pending `sub` queue is an
identifier that names a macro of the table but whose `expanded_from` set
already contains that macro's name, `next` returns the identifier token
unchanged and only pops it off the queue: the macro's apply operation is
not invoked and the state is otherwise untouched. -/
theorem ppNext_painted_blue (n : Nat) (p : PPState) (t : Token)
    (rest : List Token) (m : Macro)
    (hsub : p.sub = t :: rest) (hid : t.type = .ident)
    (hm : mapLookup p.macros t.val = some m)
    (hpaint : t.expandedFrom.contains m.name = true) :
    ppNext (n + 1) p = some (.ok (some t, { p with sub := rest })) := by
  have hmem : m.name ∈ t.expandedFrom := by simpa using hpaint
  unfold ppNext
  rw [hsub]
  simp [hid, hm, hmem]

/-- Witness for C3: a painted identifier at the head of `sub`. -/
theorem ppNext_painted_blue_witness :
    ppNext 1
      { path := "m", tokMap := [], src := none,
        sub := [{ type := .ident, name := "A", expandedFrom := ["A"] }],
        visited := [],
        macros := [("A", { name := "A", tokens := [], paramsLen := -1 })] } =
      some (.ok (some { type := .ident, name := "A", expandedFrom := ["A"] },
        { path := "m", tokMap := [], src := none, sub := [], visited := [],
          macros := [("A", { name := "A", tokens := [], paramsLen := -1 })] })) :=
  ppNext_painted_blue 0 _ _ [] { name := "A", tokens := [], paramsLen := -1 }
    (by rfl) (by rfl) (by rfl) (by rfl)

/-! ## C7: ReadPPNumber -/

theorem isDigit_not_expo {b : Char} (h : isDigit b = true) : isExpoMark b = false := by
  by_contra hne
  rw [Bool.not_eq_false] at hne
  simp only [isExpoMark, Bool.or_eq_true, decide_eq_true_eq] at hne
  rcases hne with ((rfl | rfl) | rfl) | rfl <;> simp [isDigit] at h

theorem sign_not_expo {d : Char} (h : d = '+' ∨ d = '-') : isExpoMark d = false := by
  rcases h with rfl | rfl <;> decide

theorem digitClass_if_neg {c : Char} (hcls : isDigit c = true ∨ c = '.' ∨ isNondigit c = true) :
    ¬ (¬ isDigit c = true ∧ c ≠ '.' ∧ ¬ isNondigit c = true) := fun hh => by
  rcases hcls with hc | hc | hc
  exacts [hh.1 hc, hh.2.1 hc, hh.2.2 hc]

theorem readPPNumberLoop_nil : readPPNumberLoop [] = ([], []) := by
  rw [readPPNumberLoop]

theorem readPPNumberLoop_stop {c : Char} (rest : List Char)
    (hc : ¬ isDigit c = true ∧ c ≠ '.' ∧ ¬ isNondigit c = true) :
    readPPNumberLoop (c :: rest) = ([], c :: rest) := by
  cases rest with
  | nil => rw [readPPNumberLoop, if_pos hc]
  | cons d rest2 => rw [readPPNumberLoop, if_pos hc]

theorem readPPNumberLoop_plain {c : Char} (rest : List Char)
    (hcls : isDigit c = true ∨ c = '.' ∨ isNondigit c = true)
    (hne : isExpoMark c = false) :
    readPPNumberLoop (c :: rest) =
      (c :: (readPPNumberLoop rest).1, (readPPNumberLoop rest).2) := by
  cases rest with
  | nil =>
    conv_lhs => rw [readPPNumberLoop]
    rw [if_neg (digitClass_if_neg hcls), if_neg (by simp [hne])]
  | cons d rest2 =>
    conv_lhs => rw [readPPNumberLoop]
    rw [if_neg (digitClass_if_neg hcls), if_neg (by simp [hne])]

theorem readPPNumberLoop_expo_nil {c : Char}
    (hcls : isDigit c = true ∨ c = '.' ∨ isNondigit c = true)
    (he : isExpoMark c = true) :
    readPPNumberLoop [c] = ([c], []) := by
  rw [readPPNumberLoop, if_neg (digitClass_if_neg hcls), if_pos he]

theorem readPPNumberLoop_expo_sign {c d : Char} (rest2 : List Char)
    (hcls : isDigit c = true ∨ c = '.' ∨ isNondigit c = true)
    (he : isExpoMark c = true) (hd : d = '+' ∨ d = '-') :
    readPPNumberLoop (c :: d :: rest2) =
      (c :: d :: (readPPNumberLoop rest2).1, (readPPNumberLoop rest2).2) := by
  rw [readPPNumberLoop, if_neg (digitClass_if_neg hcls), if_pos he]
  simp only [hd, if_pos]

theorem readPPNumberLoop_expo_nosign {c d : Char} (rest2 : List Char)
    (hcls : isDigit c = true ∨ c = '.' ∨ isNondigit c = true)
    (he : isExpoMark c = true) (hd : ¬ (d = '+' ∨ d = '-')) :
    readPPNumberLoop (c :: d :: rest2) =
      (c :: (readPPNumberLoop (d :: rest2)).1, (readPPNumberLoop (d :: rest2)).2) := by
  rw [readPPNumberLoop, if_neg (digitClass_if_neg hcls), if_pos he]
  simp only [hd, if_neg, if_false]

theorem ppNumberTailClaim_nil (prev : Char) : ppNumberTailClaim prev [] = ([], []) := by
  rw [ppNumberTailClaim]

theorem ppNumberTailClaim_sign {prev c : Char} (rest : List Char)
    (h : (c = '+' ∨ c = '-') ∧ isExpoMark prev = true) :
    ppNumberTailClaim prev (c :: rest) =
      (c :: (ppNumberTailClaim c rest).1, (ppNumberTailClaim c rest).2) := by
  rw [ppNumberTailClaim, if_pos h]

theorem ppNumberTailClaim_class {prev c : Char} (rest : List Char)
    (hns : ¬ ((c = '+' ∨ c = '-') ∧ isExpoMark prev = true))
    (hcls : isDigit c = true ∨ c = '.' ∨ isNondigit c = true) :
    ppNumberTailClaim prev (c :: rest) =
      (c :: (ppNumberTailClaim c rest).1, (ppNumberTailClaim c rest).2) := by
  rw [ppNumberTailClaim, if_neg hns, if_pos hcls]

theorem ppNumberTailClaim_stop {prev c : Char} (rest : List Char)
    (hns : ¬ ((c = '+' ∨ c = '-') ∧ isExpoMark prev = true))
    (hcls : ¬ (isDigit c = true ∨ c = '.' ∨ isNondigit c = true)) :
    ppNumberTailClaim prev (c :: rest) = ([], c :: rest) := by
  rw [ppNumberTailClaim, if_neg hns, if_neg hcls]

/-- The claim-side consumption loop agrees with the code's loop, provided
the previous byte being an exponent marker implies the next byte is not a
sign (in particular whenever the previous byte is a digit or a dot). -/
theorem ppNumberTailClaim_eq_loop :
    ∀ (k : Nat) (prev : Char) (l : List Char), l.length ≤ k →
      (isExpoMark prev = true → headIsSign l = false) →
      ppNumberTailClaim prev l = readPPNumberLoop l := by
  intro k
  induction k with
  | zero =>
    intro prev l hl _
    cases l with
    | nil => rw [ppNumberTailClaim_nil, readPPNumberLoop_nil]
    | cons c rest => simp at hl
  | succ k ih =>
    intro prev l hl hp
    cases l with
    | nil => rw [ppNumberTailClaim_nil, readPPNumberLoop_nil]
    | cons c rest =>
      have hsign : ¬ ((c = '+' ∨ c = '-') ∧ isExpoMark prev = true) := by
        rintro ⟨hc, hexpo⟩
        have := hp hexpo
        rcases hc with rfl | rfl <;> simp [headIsSign] at this
      by_cases hcls : isDigit c = true ∨ c = '.' ∨ isNondigit c = true
      · rw [ppNumberTailClaim_class rest hsign hcls]
        by_cases hexpo : isExpoMark c = true
        · cases rest with
          | nil =>
            rw [ppNumberTailClaim_nil, readPPNumberLoop_expo_nil hcls hexpo]
          | cons d rest2 =>
            by_cases hd : d = '+' ∨ d = '-'
            · rw [ppNumberTailClaim_sign rest2 ⟨hd, hexpo⟩,
                readPPNumberLoop_expo_sign rest2 hcls hexpo hd]
              rw [ih d rest2 (by simp at hl; omega)
                (fun hde => absurd hde (by simp [sign_not_expo hd]))]
            · rw [readPPNumberLoop_expo_nosign rest2 hcls hexpo hd]
              rw [ih c (d :: rest2) (by simp at hl ⊢; omega) (fun _ => by
                simp only [headIsSign]
                rcases Decidable.em (d = '+') with rfl | h1
                · exact absurd (Or.inl rfl) hd
                · rcases Decidable.em (d = '-') with rfl | h2
                  · exact absurd (Or.inr rfl) hd
                  · simp [h1, h2])]
        · rw [Bool.not_eq_true] at hexpo
          rw [readPPNumberLoop_plain rest hcls hexpo]
          rw [ih c rest (by simp at hl; omega)
            (fun hce => absurd hce (by simp [hexpo]))]
      · rw [ppNumberTailClaim_stop rest hsign hcls,
          readPPNumberLoop_stop rest (by push_neg at hcls; exact hcls)]

/-- **C7** counterexample: on the single byte `.` — a dot not followed by
a digit — `ReadPPNumber` succeeds with the spelling `"."` rather than
failing, so the claimed precondition "a `.` must be followed by a digit"
does not hold of the code, which only checks the first byte itself. -/
theorem readPPNumber_lone_dot_succeeds : ReadPPNumber ['.'] = .ok (".", []) := by
  simp only [ReadPPNumber]
  rw [if_neg (by intro hh; exact hh.2 rfl), readPPNumberLoop_nil]

/-- **C7** (amended): `ReadPPNumber` fails on empty input and exactly when
the first byte is neither a digit nor `.` (the byte after a leading dot is
not examined); otherwise it consumes bytes while the next byte is a digit,
`.`, or nondigit, additionally consuming a `+` or `-` byte exactly when
the just-consumed byte was one of `e E p P`, and returns the consumed
spelling together with the unconsumed rest of the source. -/
theorem readPPNumber_characterization (src : List Char) :
    (src = [] → ReadPPNumber src = .error "ioutil: unexpected EOF") ∧
    (∀ b rest, src = b :: rest → ¬ (isDigit b = true ∨ b = '.') →
      ReadPPNumber src = .error ("literal: expected digit or . but " ++ toString b)) ∧
    (∀ b rest, src = b :: rest → (isDigit b = true ∨ b = '.') →
      ReadPPNumber src =
        .ok (String.mk (b :: (ppNumberTailClaim b rest).1),
             (ppNumberTailClaim b rest).2)) := by
  refine ⟨?_, ?_, ?_⟩
  · rintro rfl; rfl
  · rintro b rest rfl hb
    push_neg at hb
    simp only [ReadPPNumber]
    rw [if_pos ⟨by simp [hb.1], hb.2⟩]
  · rintro b rest rfl hb
    simp only [ReadPPNumber]
    rw [if_neg (fun hh => by
      rcases hb with hb | hb
      · exact hh.1 hb
      · exact hh.2 hb)]
    have hexpo : isExpoMark b = true → headIsSign rest = false := by
      intro he
      rcases hb with hb | hb
      · rw [isDigit_not_expo hb] at he; exact absurd he (by simp)
      · subst hb; exact absurd he (by decide)
    rw [ppNumberTailClaim_eq_loop rest.length b rest (le_refl _) hexpo]

/-- Witness for C7 (amended) on the input `"1"`. -/
theorem readPPNumber_characterization_witness :
    ReadPPNumber ['1'] =
      .ok (String.mk ('1' :: (ppNumberTailClaim '1' []).1),
           (ppNumberTailClaim '1' []).2) :=
  (readPPNumber_characterization ['1']).2.2 '1' [] rfl (Or.inl (by decide))

/-! ## C8: idempotence of FinishTokenize -/

theorem joinSLAux_head (cur : Token) (l : List Token) :
    ∃ w tl, joinSLAux cur l = w :: tl ∧ w.type = cur.type := by
  induction l generalizing cur with
  | nil => exact ⟨cur, [], rfl, rfl⟩
  | cons t rest ih =>
    unfold joinSLAux
    by_cases hc : cur.type = .stringLiteral ∧ t.type = .stringLiteral
    · rw [if_pos hc]
      obtain ⟨w, tl, heq, hw⟩ := ih { cur with stringValue := cur.stringValue ++ t.stringValue }
      exact ⟨w, tl, heq, hw⟩
    · rw [if_neg hc]
      exact ⟨cur, joinSLAux t rest, rfl, rfl⟩

theorem joinSLAux_chain (cur : Token) (l : List Token) :
    (joinSLAux cur l).Chain'
      (fun a b => ¬ (a.type = .stringLiteral ∧ b.type = .stringLiteral)) := by
  induction l generalizing cur with
  | nil => simp [joinSLAux]
  | cons t rest ih =>
    unfold joinSLAux
    by_cases hc : cur.type = .stringLiteral ∧ t.type = .stringLiteral
    · rw [if_pos hc]; exact ih _
    · rw [if_neg hc]
      obtain ⟨w, tl, heq, hw⟩ := joinSLAux_head t rest
      rw [heq]
      rw [List.chain'_cons]
      refine ⟨fun hh => hc ⟨hh.1, ?_⟩, heq ▸ ih t⟩
      rw [← hw]; exact hh.2

theorem joinSLAux_of_chain (cur : Token) (l : List Token)
    (h : (cur :: l).Chain'
      (fun a b => ¬ (a.type = .stringLiteral ∧ b.type = .stringLiteral))) :
    joinSLAux cur l = cur :: l := by
  induction l generalizing cur with
  | nil => rfl
  | cons t rest ih =>
    unfold joinSLAux
    rw [List.chain'_cons] at h
    rw [if_neg h.1, ih t h.2]

theorem joinSLAux_types (cur : Token) (l : List Token) :
    ∀ u ∈ joinSLAux cur l, u.type = cur.type ∨ ∃ v ∈ l, u.type = v.type := by
  induction l generalizing cur with
  | nil =>
    intro u hu
    unfold joinSLAux at hu
    simp at hu
    subst hu
    exact Or.inl rfl
  | cons t rest ih =>
    intro u hu
    unfold joinSLAux at hu
    by_cases hc : cur.type = .stringLiteral ∧ t.type = .stringLiteral
    · rw [if_pos hc] at hu
      rcases ih _ u hu with h1 | ⟨v, hv, hvt⟩
      · exact Or.inl h1
      · exact Or.inr ⟨v, List.mem_cons_of_mem _ hv, hvt⟩
    · rw [if_neg hc] at hu
      rcases List.mem_cons.1 hu with rfl | hu2
      · exact Or.inl rfl
      · rcases ih t u hu2 with h1 | ⟨v, hv, hvt⟩
        · exact Or.inr ⟨t, List.mem_cons_self _ _, h1⟩
        · exact Or.inr ⟨v, List.mem_cons_of_mem _ hv, hvt⟩

theorem joinStringLiterals_chain (l : List Token) :
    (joinStringLiterals l).Chain'
      (fun a b => ¬ (a.type = .stringLiteral ∧ b.type = .stringLiteral)) := by
  cases l with
  | nil => simp [joinStringLiterals]
  | cons t rest => exact joinSLAux_chain t rest

theorem joinStringLiterals_of_chain (l : List Token)
    (h : l.Chain'
      (fun a b => ¬ (a.type = .stringLiteral ∧ b.type = .stringLiteral))) :
    joinStringLiterals l = l := by
  cases l with
  | nil => rfl
  | cons t rest => exact joinSLAux_of_chain t rest h

theorem joinStringLiterals_no_newline (l : List Token)
    (h : ∀ u ∈ l, ¬ u.type = .chr '\n') :
    stripNewLineTokens (joinStringLiterals l) = joinStringLiterals l := by
  unfold stripNewLineTokens
  rw [List.filter_eq_self]
  intro u hu
  cases l with
  | nil => simp [joinStringLiterals] at hu
  | cons t rest =>
    rcases joinSLAux_types t rest u hu with h1 | ⟨v, hv, hvt⟩
    · simpa [h1] using h t (List.mem_cons_self _ _)
    · simpa [hvt] using h v (List.mem_cons_of_mem _ hv)

/-- **C8** (confirmed): `FinishTokenize` is idempotent — stripping newline
tokens and concatenating runs of adjacent string literals a second time
changes nothing. -/
theorem finishTokenize_idempotent (x : List Token) :
    FinishTokenize (FinishTokenize x) = FinishTokenize x := by
  unfold FinishTokenize
  rw [joinStringLiterals_no_newline (stripNewLineTokens x) (by
    intro u hu
    have := List.of_mem_filter hu
    simpa using this)]
  exact joinStringLiterals_of_chain _ (joinStringLiterals_chain _)

/-! ## C6: the tokenizer ppstate machine -/

theorem nextImpl_state (st : TokState) (src : List Char) (r : Option Token)
    (st' : TokState) (rest : List Char)
    (h : nextImpl st src = .ok (r, st', rest)) :
    st'.ppstate = st.ppstate ∧ st'.wasSpace = st.isSpace := by
  cases src with
  | nil => simp [nextImpl] at h
  | cons b rest0 =>
    simp only [nextImpl] at h
    cases hd : nextImplDispatch st.ppstate b rest0 with
    | error e => rw [hd] at h; exact absurd h (by simp)
    | ok pr =>
      obtain ⟨r0, rem⟩ := pr
      rw [hd] at h
      simp only [Except.ok.injEq, Prod.mk.injEq] at h
      obtain ⟨h3, h4, h5⟩ := h
      rw [← h4]
      exact ⟨rfl, rfl⟩

theorem dispatch_headerName_iff (pp : Int) (b : Char) (rest : List Char)
    (hb : b = '<' ∨ b = '"') (tk : Token) (rem : List Char)
    (h : nextImplDispatch pp b rest = .ok (some tk, rem)) :
    (tk.type = .headerName ↔ pp = 2) := by
  rcases hb with rfl | rfl
  · by_cases hpp : pp = 2
    · delta nextImplDispatch at h
      simp +decide only [spaceChars, hpp, List.contains_cons, if_true, if_false] at h
      cases hr : ReadHeaderName ('<' :: rest) with
      | error e => rw [hr] at h; simp at h
      | ok p =>
        rw [hr] at h
        simp at h
        obtain ⟨h1, h2⟩ := h
        rw [← h1]
        simp [hpp]
    · delta nextImplDispatch at h
      simp +decide only [spaceChars, hpp, List.contains_cons, if_true, if_false] at h
      split at h <;>
        (simp at h; obtain ⟨h1, h2⟩ := h; rw [← h1]; simp [hpp])
  · by_cases hpp : pp = 2
    · delta nextImplDispatch at h
      simp +decide only [spaceChars, hpp, List.contains_cons, if_true, if_false] at h
      cases hr : ReadHeaderName ('"' :: rest) with
      | error e => rw [hr] at h; simp at h
      | ok p =>
        rw [hr] at h
        simp at h
        obtain ⟨h1, h2⟩ := h
        rw [← h1]
        simp [hpp]
    · delta nextImplDispatch at h
      simp +decide only [spaceChars, hpp, List.contains_cons, if_true, if_false] at h
      cases hr : ReadString ('"' :: rest) with
      | error e => rw [hr] at h; simp at h
      | ok p =>
        rw [hr] at h
        simp at h
        obtain ⟨h1, h2⟩ := h
        rw [← h1]
        simp [hpp]

theorem nextTok_ppstate (n : Nat) :
    ∀ (st : TokState) (src : List Char) (tk : Token) (st' : TokState)
      (rest : List Char),
      nextTok n st src = .ok (tk, st', rest) →
      st'.ppstate =
        (if tk.type = .chr '\n' then 0
         else if tk.type = .chr '#' then (if st.ppstate = 0 then 1 else -1)
         else if tk.type = .ident then
           (if st.ppstate = 1 ∧ tk.name = "include" then 2 else -1)
         else (-1 : Int)) := by
  induction n with
  | zero => intro st src tk st' rest h; simp [nextTok] at h
  | succ n ih =>
    intro st src tk st' rest h
    simp only [nextTok] at h
    cases hni : nextImpl st src with
    | error e => rw [hni] at h; exact absurd h (by simp)
    | ok res =>
      obtain ⟨r0, st1, rest1⟩ := res
      rw [hni] at h
      cases r0 with
      | some tk0 =>
        simp only [Except.ok.injEq, Prod.mk.injEq] at h
        obtain ⟨h1, h2, h3⟩ := h
        rw [← h1, ← h2]
        have hst := (nextImpl_state st src _ _ _ hni).1
        show ppStateStep st1.ppstate _ = _
        rw [hst, ppStateStep]
      | none =>
        have hst := (nextImpl_state st src _ _ _ hni).1
        rw [← hst]
        exact ih st1 rest1 tk st' rest h

/-- **C6** (confirmed): the tokenizer's `ppstate` follows the specified
state machine: it is 0 at the start of input; after each emitted token it
is 0 on `Newline`, 1 on a `#` emitted in state 0, 2 on `Ident("include")`
emitted in state 1, and −1 otherwise; and a token lexed from a leading `<`
or `"` byte is a `HeaderName` token exactly when the state is 2 (in any
other state those bytes lex as punctuators or a string literal). -/
theorem ppstate_machine :
    tokenizerInit.ppstate = 0 ∧
    (∀ (n : Nat) (st : TokState) (src : List Char) (tk : Token)
      (st' : TokState) (rest : List Char),
      nextTok n st src = .ok (tk, st', rest) →
      st'.ppstate =
        (if tk.type = .chr '\n' then 0
         else if tk.type = .chr '#' then (if st.ppstate = 0 then 1 else -1)
         else if tk.type = .ident then
           (if st.ppstate = 1 ∧ tk.name = "include" then 2 else -1)
         else (-1 : Int))) ∧
    (∀ (st : TokState) (b : Char) (rest : List Char) (tk : Token)
      (st' : TokState) (rem : List Char), (b = '<' ∨ b = '"') →
      nextImpl st (b :: rest) = .ok (some tk, st', rem) →
      (tk.type = .headerName ↔ st.ppstate = 2)) := by
  refine ⟨rfl, fun n => nextTok_ppstate n, ?_⟩
  intro st b rest tk st' rem hb h
  simp only [nextImpl] at h
  cases hd : nextImplDispatch st.ppstate b rest with
  | error e => rw [hd] at h; exact absurd h (by simp)
  | ok pr =>
    obtain ⟨r0, rem0⟩ := pr
    rw [hd] at h
    simp only [Except.ok.injEq, Prod.mk.injEq] at h
    obtain ⟨h1, h2, h3⟩ := h
    rw [h1] at hd
    exact dispatch_headerName_iff st.ppstate b rest hb tk rem0 hd

/-- Witness for C6: a `#` at the start of input moves the state from 0 to
1, and a `<` read in state 0 lexes as a punctuator, not a header name. -/
theorem ppstate_machine_witness :
    (({ ppstate := 1, isSpace := false, wasSpace := false } : TokState).ppstate =
      (if ({ type := TokenType.chr '#', adjacent := true } : Token).type = .chr '\n' then 0
       else if ({ type := TokenType.chr '#', adjacent := true } : Token).type = .chr '#' then
         (if tokenizerInit.ppstate = 0 then 1 else -1)
       else if ({ type := TokenType.chr '#', adjacent := true } : Token).type = .ident then
         (if tokenizerInit.ppstate = 1 ∧
             ({ type := TokenType.chr '#', adjacent := true } : Token).name = "include"
          then 2 else -1)
       else (-1 : Int))) ∧
    (({ type := TokenType.chr '<' } : Token).type = TokenType.headerName ↔
      tokenizerInit.ppstate = 2) :=
  ⟨ppstate_machine.2.1 1 tokenizerInit ['#'] { type := TokenType.chr '#', adjacent := true }
      { ppstate := 1, isSpace := false, wasSpace := false } [] (by rfl),
   ppstate_machine.2.2 tokenizerInit '<' [] { type := TokenType.chr '<' }
      { ppstate := 0, isSpace := false, wasSpace := false } [] (Or.inl rfl) (by rfl)⟩

/-! ## C4: the recursive-include guard -/

/-- **C4** (confirmed): processing an `#include` directive whose
header-name path is already in the visited set fails with the
"recursive #include" error naming the path; and `Preprocess` seeds the
visited set with the starting path, so a translation unit that includes
its own path fails with that error instead of looping (scenario S7). -/
theorem include_recursive_guard
    (n : Nat) (p : PPState) (toks : List Token) (pos : Nat)
    (tH tI tP : Token) (pos1 pos2 pos3 : Nat) (path : String)
    (hsub : p.sub = [])
    (hsrc : p.src = some (toks, pos))
    (hhead : AtLineHead toks pos = true)
    (h1 : ppTokenBufReaderNextPPToken toks pos = (tH, pos1))
    (hH : tH.type = .chr '#')
    (h2 : ppTokenBufReaderNextPPToken toks pos1 = (tI, pos2))
    (hI : tI.type = .ident) (hIv : tI.val = "include")
    (h3 : nextExpected toks pos2 [.headerName] = .ok (tP, pos3))
    (hPv : tP.val = path)
    (hvis : p.visited.contains path = true) :
    ppNext (n + 1) p = some (.error ("preprocess: recursive #include: " ++ path)) ∧
    Preprocess 10 "self" [("self",
      [{ type := .chr '#' }, { type := .ident, name := "include" },
       { type := .headerName, stringValue := "self" }, { type := .chr '\n' }])] =
      some (.error "preprocess: recursive #include: self") := by
  constructor
  · unfold ppNext
    rw [hsub, hsrc]
    simp +decide only [h1, h2, h3, hhead, hH, hI, hIv, hPv, hvis, if_true, if_false]
  · rfl

/-- Witness for C4: a concrete preprocessor state about to re-include a
visited path. -/
theorem include_recursive_guard_witness :
    ppNext 1
      { path := "m", tokMap := [], src := some ([{ type := .chr '#' },
          { type := .ident, name := "include" },
          { type := .headerName, stringValue := "x" },
          { type := .chr '\n' }], 0),
        sub := [], visited := ["x"], macros := [] } =
      some (.error ("preprocess: recursive #include: " ++ "x")) :=
  (include_recursive_guard 0
    { path := "m", tokMap := [], src := some ([{ type := .chr '#' },
        { type := .ident, name := "include" },
        { type := .headerName, stringValue := "x" },
        { type := .chr '\n' }], 0),
      sub := [], visited := ["x"], macros := [] }
    [{ type := .chr '#' }, { type := .ident, name := "include" },
     { type := .headerName, stringValue := "x" }, { type := .chr '\n' }] 0
    { type := .chr '#' } { type := .ident, name := "include" }
    { type := .headerName, stringValue := "x" } 1 2 3 "x"
    rfl rfl (by rfl) (by rfl) (by rfl) (by rfl) (by rfl) (by rfl) (by rfl)
    (by rfl) (by rfl)).1

/-! ## C1: the nested include macro table -/

/-- **C1** (code bug): the claim (and spec §9, which mandates a shared
macro table) is contradicted by the code: on a successful `#include`, the
nested preprocessor is created by `preprocessImpl` with a fresh empty
macro table (second conjunct), and the including preprocessor's macro
table is left exactly as it was (third conjunct) — so macros defined
before the `#include` are not in the nested unit's table, and a `#define`
processed inside the included unit cannot survive into the including
unit. -/
theorem include_fresh_macro_table
    (n : Nat) (p : PPState) (toks : List Token) (pos : Nat)
    (tH tI tP : Token) (pos1 pos2 pos3 : Nat) (path : String)
    (ts : List Token) (q : PPState)
    (hsub : p.sub = [])
    (hsrc : p.src = some (toks, pos))
    (hhead : AtLineHead toks pos = true)
    (h1 : ppTokenBufReaderNextPPToken toks pos = (tH, pos1))
    (hH : tH.type = .chr '#')
    (h2 : ppTokenBufReaderNextPPToken toks pos1 = (tI, pos2))
    (hI : tI.type = .ident) (hIv : tI.val = "include")
    (h3 : nextExpected toks pos2 [.headerName] = .ok (tP, pos3))
    (hPv : tP.val = path)
    (hvis : p.visited.contains path = false)
    (hdrain : ppDrain n (preprocessImpl path p.tokMap (path :: p.visited)) =
      some (.ok (ts, q))) :
    ppNext (n + 1) p =
      some (.ok (none,
        { p with src := some (toks, pos3), sub := ts, visited := q.visited })) ∧
    (preprocessImpl path p.tokMap (path :: p.visited)).macros = [] ∧
    ({ p with src := some (toks, pos3), sub := ts, visited := q.visited }
        : PPState).macros = p.macros := by
    refine ⟨?_, rfl, rfl⟩
    unfold ppNext
    rw [hsub, hsrc]
    simp +decide only [h1, h2, h3, hhead, hH, hI, hIv, hPv, hvis, hdrain,
      if_true, if_false]

/-- Witness for C1: "m" includes "h", which defines `B`; the drained
include yields no tokens, the nested table started empty, and the outer
macro table is unchanged — `B` is not defined in the including unit. -/
theorem include_fresh_macro_table_witness :
    ppNext 9
      { path := "m",
        tokMap := [("h",
          [{ type := .chr '#' }, { type := .ident, name := "define" },
           { type := .ident, name := "B" },
           { type := .numberLiteral, numberValue := "2" },
           { type := .chr '\n' }])],
        src := some ([{ type := .chr '#' }, { type := .ident, name := "include" },
          { type := .headerName, stringValue := "h" }, { type := .chr '\n' }], 0),
        sub := [], visited := ["m"], macros := [] } =
      some (.ok (none,
        { path := "m",
          tokMap := [("h",
            [{ type := .chr '#' }, { type := .ident, name := "define" },
             { type := .ident, name := "B" },
             { type := .numberLiteral, numberValue := "2" },
             { type := .chr '\n' }])],
          src := some ([{ type := .chr '#' }, { type := .ident, name := "include" },
            { type := .headerName, stringValue := "h" }, { type := .chr '\n' }], 3),
          sub := [], visited := ["h", "m"], macros := [] })) ∧
    (preprocessImpl "h"
      [("h",
        [{ type := .chr '#' }, { type := .ident, name := "define" },
         { type := .ident, name := "B" },
         { type := .numberLiteral, numberValue := "2" },
         { type := .chr '\n' }])] ["h", "m"]).macros = [] := by
  have h := include_fresh_macro_table 8
    { path := "m",
      tokMap := [("h",
        [{ type := .chr '#' }, { type := .ident, name := "define" },
         { type := .ident, name := "B" },
         { type := .numberLiteral, numberValue := "2" },
         { type := .chr '\n' }])],
      src := some ([{ type := .chr '#' }, { type := .ident, name := "include" },
        { type := .headerName, stringValue := "h" }, { type := .chr '\n' }], 0),
      sub := [], visited := ["m"], macros := [] }
    [{ type := .chr '#' }, { type := .ident, name := "include" },
     { type := .headerName, stringValue := "h" }, { type := .chr '\n' }] 0
    { type := .chr '#' } { type := .ident, name := "include" }
    { type := .headerName, stringValue := "h" } 1 2 3 "h"
    []
    { path := "h",
      tokMap := [("h",
        [{ type := .chr '#' }, { type := .ident, name := "define" },
         { type := .ident, name := "B" },
         { type := .numberLiteral, numberValue := "2" },
         { type := .chr '\n' }])],
      src := some ([{ type := .chr '#' }, { type := .ident, name := "define" },
        { type := .ident, name := "B" },
        { type := .numberLiteral, numberValue := "2" },
        { type := .chr '\n' }], 5),
      sub := [], visited := ["h", "m"],
      macros := [("B",
                   { name := "B",
                     tokens := [{ type := .numberLiteral, numberValue := "2" }],
                     paramsLen := -1 })] }
    rfl rfl (by rfl) (by rfl) (by rfl) (by rfl) (by rfl) (by rfl) (by rfl)
    (by rfl) (by rfl) (by rfl)
  exact ⟨h.1, h.2.1⟩

/-! ## C2, counterexample part: divergence without the newline sentinel -/

theorem collectLineTokens_eof (toks : List Token) (pos : Nat)
    (hpos : toks.length ≤ pos) :
    ∀ n, collectLineTokens n toks pos = none := by
  intro n
  induction n with
  | zero => rfl
  | succ n ih =>
    simp +decide only [collectLineTokens, ppTokenBufReaderNextPPToken, ge_iff_le,
      hpos, if_true]
    simp only [eofToken]
    rw [if_neg (by decide)]
    rw [ih]

/-- **C2** counterexample: the claim quantifies over *every* input token
vector, but the code relies on the tokenizer's newline sentinel: on the
translation unit `# define A` with no trailing newline token, the `define`
body loop keeps reading `EOF` tokens (which never advance the reader and
are not `Newline`), so `NextPPToken` never returns — in the embedding,
the call is `none` (still running) at every fuel. -/
theorem nextPPToken_diverges_without_newline :
    NeverReturns (preprocessImpl "m"
      [("m", [{ type := .chr '#' }, { type := .ident, name := "define" },
              { type := .ident, name := "A" }])] ["m"]) := by
  unfold NeverReturns
  have hcollect := collectLineTokens_eof
    [{ type := .chr '#' }, { type := .ident, name := "define" },
     { type := .ident, name := "A" }] 3 (by decide)
  have hnext : ∀ k, ppNext k
      { path := "m",
        tokMap := [("m", [{ type := .chr '#' }, { type := .ident, name := "define" },
                          { type := .ident, name := "A" }])],
        src := some ([{ type := .chr '#' }, { type := .ident, name := "define" },
                      { type := .ident, name := "A" }], 0),
        sub := [], visited := ["m"], macros := [] } = none := by
    intro k
    cases k with
    | zero => rfl
    | succ k =>
      unfold ppNext
      simp +decide only [AtLineHead, ppTokenBufReaderNextPPToken,
        ppTokenBufReaderPeek, nextExpected, mapLookup, Token.val, parseDefine,
        List.find?, List.contains_cons, List.length_cons, List.length_nil,
        if_true, if_false, hcollect]
  intro n
  cases n with
  | zero => rfl
  | succ n =>
    have hstep : ppNextPPToken (n + 1) (preprocessImpl "m"
        [("m", [{ type := .chr '#' }, { type := .ident, name := "define" },
                { type := .ident, name := "A" }])] ["m"]) =
      ppNextPPToken n
        { path := "m",
          tokMap := [("m", [{ type := .chr '#' }, { type := .ident, name := "define" },
                            { type := .ident, name := "A" }])],
          src := some ([{ type := .chr '#' }, { type := .ident, name := "define" },
                        { type := .ident, name := "A" }], 0),
          sub := [], visited := ["m"], macros := [] } := by
      rfl
    rw [hstep]
    cases n with
    | zero => rfl
    | succ n =>
      simp only [ppNextPPToken, hnext]

/-! ## C2, termination infrastructure: the count-vector order -/

theorem vecLt_length {a b : List Nat} (h : VecLt a b) : a.length = b.length := by
  induction h with
  | head h hl => simp [hl]
  | tail _ ih => simp [ih]

theorem vecLt_acc_cons (n : Nat)
    (ihn : ∀ as : List Nat, as.length = n → Acc VecLt as) :
    ∀ (a : Nat) (as : List Nat), as.length = n → Acc VecLt (a :: as) := by
  intro a
  induction a using Nat.strong_induction_on with
  | _ a iha =>
    have key : ∀ as : List Nat, Acc VecLt as → as.length = n → Acc VecLt (a :: as) := by
      intro as hacc
      induction hacc with
      | intro x hx ihx =>
        intro hlen
        constructor
        intro y hy
        cases hy with
        | head hlt hl =>
          exact iha _ hlt _ (by rw [hl]; exact hlen)
        | tail hlt =>
          exact ihx _ hlt (by rw [vecLt_length hlt]; exact hlen)
    intro as hlen
    exact key as (ihn as hlen) hlen

theorem vecLt_wf_aux : ∀ (n : Nat) (l : List Nat), l.length = n → Acc VecLt l := by
  intro n
  induction n with
  | zero =>
    intro l hl
    constructor
    intro y hy
    exfalso
    cases l with
    | nil => cases hy
    | cons a as => simp at hl
  | succ n ihn =>
    intro l hl
    cases l with
    | nil => simp at hl
    | cons a as => exact vecLt_acc_cons n ihn a as (by simpa using hl)

theorem vecLt_intro : ∀ (p : Nat) (as bs : List Nat), as.length = bs.length →
    (∀ q, q < p → as.getD q 0 ≤ bs.getD q 0) → as.getD p 0 < bs.getD p 0 →
    VecLt as bs := by
  intro p
  induction p with
  | zero =>
    intro as bs hlen hle hlt
    cases as with
    | nil =>
      cases bs with
      | nil => simp [List.getD] at hlt
      | cons b bs' => simp at hlen
    | cons a as' =>
      cases bs with
      | nil => simp at hlen
      | cons b bs' =>
        exact VecLt.head (by simpa using hlt) (by simpa using hlen)
  | succ p ihp =>
    intro as bs hlen hle hlt
    cases as with
    | nil =>
      cases bs with
      | nil => simp [List.getD] at hlt
      | cons b bs' => simp at hlen
    | cons a as' =>
      cases bs with
      | nil => simp at hlen
      | cons b bs' =>
        rcases Nat.lt_or_ge a b with hab | hab
        · exact VecLt.head hab (by simpa using hlen)
        · have hba : a = b := le_antisymm
            (by have := hle 0 (Nat.succ_pos p); simpa using this) hab
          subst hba
          refine VecLt.tail (ihp as' bs' (by simpa using hlen) ?_ (by simpa using hlt))
          intro q hq
          have := hle (q + 1) (by omega)
          simpa using this

/-! ## C2, termination infrastructure: count lemmas -/

theorem tokenMeasure_le_card (N : Finset String) (t : Token) :
    tokenMeasure N t ≤ N.card :=
  Finset.card_le_card (Finset.sdiff_subset)

theorem msrCount_cons (N : Finset String) (k : Nat) (t : Token) (ts : List Token) :
    msrCount N k (t :: ts) =
      (if tokenMeasure N t = k then 1 else 0) + msrCount N k ts := by
  unfold msrCount
  rw [List.filter_cons]
  by_cases h : tokenMeasure N t = k
  · simp [h, Nat.add_comm]
  · simp [h]

theorem msrCount_append (N : Finset String) (k : Nat) (xs ys : List Token) :
    msrCount N k (xs ++ ys) = msrCount N k xs + msrCount N k ys := by
  unfold msrCount
  rw [List.filter_append, List.length_append]

theorem msrCount_sublist {xs ys : List Token} (h : xs.Sublist ys)
    (N : Finset String) (k : Nat) : msrCount N k xs ≤ msrCount N k ys :=
  List.Sublist.length_le (List.Sublist.filter _ h)

theorem msrCount_zero_of_lt (N : Finset String) (j : Nat) (ts : List Token)
    (h : ∀ t ∈ ts, tokenMeasure N t < j) (k : Nat) (hk : j ≤ k) :
    msrCount N k ts = 0 := by
  unfold msrCount
  rw [List.length_eq_zero, List.filter_eq_nil_iff]
  intro t ht
  simp only [beq_iff_eq]
  intro heq
  exact absurd (heq ▸ h t ht) (by omega)

theorem msrVec_length (N : Finset String) (ts : List Token) :
    (msrVec N ts).length = N.card + 1 := by
  simp [msrVec]

theorem msrVec_getD (N : Finset String) (ts : List Token) (i : Nat)
    (hi : i < N.card + 1) :
    (msrVec N ts).getD i 0 = msrCount N (N.card - i) ts := by
  unfold msrVec
  rw [List.getD_eq_getElem?_getD]
  rw [List.getElem?_map]
  rw [List.getElem?_range hi]
  rfl

/-- Entry point for strict count-vector decrease: a strict drop at measure
`j` together with no increase above `j`. -/
theorem subQueueLt_intro (macros : List (String × Macro)) (ts' ts : List Token)
    (j : Nat) (hjle : j ≤ (macroNames macros).card)
    (hlt : msrCount (macroNames macros) j ts' < msrCount (macroNames macros) j ts)
    (hle : ∀ k, j < k → k ≤ (macroNames macros).card →
      msrCount (macroNames macros) k ts' ≤ msrCount (macroNames macros) k ts) :
    SubQueueLt macros ts' ts := by
  apply vecLt_intro ((macroNames macros).card - j)
  · rw [msrVec_length, msrVec_length]
  · intro q hq
    rw [msrVec_getD _ _ q (by omega), msrVec_getD _ _ q (by omega)]
    exact hle ((macroNames macros).card - q) (by omega) (by omega)
  · rw [msrVec_getD _ _ ((macroNames macros).card - j) (by omega),
      msrVec_getD _ _ ((macroNames macros).card - j) (by omega)]
    have hj : (macroNames macros).card - ((macroNames macros).card - j) = j := by
      omega
    rw [hj]
    exact hlt

theorem subQueueLt_wf (macros : List (String × Macro)) :
    WellFounded (SubQueueLt macros) := by
  constructor
  intro ts
  have hacc : Acc VecLt (msrVec (macroNames macros) ts) :=
    vecLt_wf_aux _ _ rfl
  -- accessibility along the inverse image
  generalize hv : msrVec (macroNames macros) ts = v at hacc
  induction hacc generalizing ts with
  | intro x hx ihx =>
    constructor
    intro ts' hts'
    subst hv
    exact ihx _ hts' ts' rfl

/-- Expanding decreases the token measure: the produced token's painted
set contains the macro name, which the consumed head did not have. -/
theorem tokenMeasure_lt_of_extend (N : Finset String) (t u : Token) (nm : String)
    (hnmN : nm ∈ N) (hnm : nm ∉ t.expandedFrom)
    (hsub : ∀ s ∈ t.expandedFrom, s ∈ u.expandedFrom)
    (hu : nm ∈ u.expandedFrom) :
    tokenMeasure N u < tokenMeasure N t := by
  apply Finset.card_lt_card
  constructor
  · intro x hx
    simp only [Finset.mem_sdiff, List.mem_toFinset] at hx ⊢
    exact ⟨hx.1, fun hmem => hx.2 (hsub x hmem)⟩
  · intro hss
    have h1 : nm ∈ N \ t.expandedFrom.toFinset := by
      simp only [Finset.mem_sdiff, List.mem_toFinset]
      exact ⟨hnmN, hnm⟩
    have h2 := hss h1
    simp only [Finset.mem_sdiff, List.mem_toFinset] at h2
    exact h2.2 hu

theorem extendExpandedFrom_mem (names : List String) (t : Token) (s : String) :
    s ∈ (extendExpandedFrom names t).expandedFrom ↔
      s ∈ names ∨ s ∈ t.expandedFrom := by
  simp [extendExpandedFrom]

/-! ## C2, termination infrastructure: reader and directive-parser facts -/

theorem nextExpected_ok {toks : List Token} {pos : Nat} {expected : List TokenType}
    {t : Token} {pos' : Nat}
    (hne : TokenType.eof ∉ expected)
    (h : nextExpected toks pos expected = .ok (t, pos')) :
    pos < toks.length ∧ pos' = pos + 1 ∧ t = toks.getD pos eofToken ∧
      t.type ∈ expected := by
  unfold nextExpected ppTokenBufReaderNextPPToken at h
  by_cases hp : pos ≥ toks.length
  · rw [if_pos hp] at h
    by_cases hc : expected.contains eofToken.type
    · exact absurd (by simpa using hc) hne
    · rw [if_neg (by simpa using hc)] at h
      exact absurd h (by simp)
  · rw [if_neg hp] at h
    by_cases hc : expected.contains (toks.getD pos eofToken).type
    · rw [if_pos (by simpa using hc)] at h
      simp only [Except.ok.injEq, Prod.mk.injEq] at h
      obtain ⟨h1, h2⟩ := h
      subst h1
      exact ⟨by omega, h2.symm, rfl, by simpa using hc⟩
    · rw [if_neg (by simpa using hc)] at h
      exact absurd h (by simp)

theorem newlineTerminated_getD {toks : List Token} (hnl : newlineTerminated toks)
    {pos : Nat} (hpos : pos < toks.length)
    (hne : (toks.getD pos eofToken).type ≠ .chr '\n') : pos + 1 < toks.length := by
  rcases Nat.lt_or_ge (pos + 1) toks.length with h | h
  · exact h
  · exfalso
    have hlast : pos = toks.length - 1 := by omega
    unfold newlineTerminated at hnl
    rw [List.getLast?_eq_getElem?] at hnl
    have hget : toks[toks.length - 1]? = some (toks.getD (toks.length - 1) eofToken) := by
      rw [List.getD_eq_getElem?_getD]
      cases hx : toks[toks.length - 1]? with
      | none => rw [List.getElem?_eq_none_iff] at hx; omega
      | some v => rfl
    rw [hget] at hnl
    simp only [Option.map_some', Option.some.injEq] at hnl
    rw [hlast] at hne
    exact hne hnl

theorem collect_some_facts : ∀ (n : Nat) (toks : List Token) (pos : Nat)
    (ts : List Token) (pos' : Nat),
    collectLineTokens n toks pos = some (ts, pos') →
    pos < toks.length ∧ pos + 1 ≤ pos' ∧ pos' ≤ toks.length := by
  intro n
  induction n with
  | zero => intro toks pos ts pos' h; simp [collectLineTokens] at h
  | succ n ih =>
    intro toks pos ts pos' h
    by_cases hp : pos ≥ toks.length
    · rw [collectLineTokens_eof toks pos hp] at h
      exact absurd h (by simp)
    · unfold collectLineTokens ppTokenBufReaderNextPPToken at h
      rw [if_neg hp] at h
      by_cases hnl : (toks.getD pos eofToken).type = .chr '\n'
      · rw [if_pos hnl] at h
        simp only [Option.some.injEq, Prod.mk.injEq] at h
        omega
      · rw [if_neg hnl] at h
        cases hc : collectLineTokens n toks (pos + 1) with
        | none => rw [hc] at h; exact absurd h (by simp)
        | some v =>
          obtain ⟨ts0, p0⟩ := v
          rw [hc] at h
          simp only [Option.some.injEq, Prod.mk.injEq] at h
          have := ih toks (pos + 1) ts0 p0 hc
          omega

theorem collect_sufficient : ∀ (n : Nat) (toks : List Token) (pos : Nat),
    newlineTerminated toks → pos < toks.length → toks.length - pos < n →
    collectLineTokens n toks pos ≠ none := by
  intro n
  induction n with
  | zero => intro toks pos _ _ h; exact absurd h (by omega)
  | succ n ih =>
    intro toks pos hnl hpos hfuel
    unfold collectLineTokens ppTokenBufReaderNextPPToken
    rw [if_neg (show ¬ pos ≥ toks.length by omega)]
    by_cases hn : (toks.getD pos eofToken).type = .chr '\n'
    · rw [if_pos hn]; simp
    · rw [if_neg hn]
      have hnext : pos + 1 < toks.length := newlineTerminated_getD hnl hpos hn
      have hne := ih toks (pos + 1) hnl hnext (by omega)
      cases hc : collectLineTokens n toks (pos + 1) with
      | none => exact absurd hc hne
      | some v =>
        obtain ⟨ts0, p0⟩ := v
        simp

theorem parseOneArg_facts : ∀ (ts : List Token) (depth : Nat)
    (arg : List Token) (c : Bool) (k : Nat),
    parseOneArg depth ts = .ok (arg, c, k) →
    arg.Sublist ts ∧ 1 ≤ k ∧ k ≤ ts.length := by
  intro ts
  induction ts with
  | nil => intro depth arg c k h; simp [parseOneArg] at h
  | cons t rest ih =>
    intro depth arg c k h
    unfold parseOneArg at h
    split_ifs at h with h1 h2 h3 h4
    · simp only [Except.ok.injEq, Prod.mk.injEq] at h
      obtain ⟨ha, _, hk⟩ := h
      subst ha
      exact ⟨List.nil_sublist _, by omega, by simp; omega⟩
    · simp only [Except.ok.injEq, Prod.mk.injEq] at h
      obtain ⟨ha, _, hk⟩ := h
      subst ha
      exact ⟨List.nil_sublist _, by omega, by simp; omega⟩
    · cases hr : parseOneArg (depth + 1) rest with
      | error e => rw [hr] at h; exact absurd h (by simp)
      | ok v =>
        obtain ⟨arg', c', k'⟩ := v
        rw [hr] at h
        simp only [Except.ok.injEq, Prod.mk.injEq] at h
        obtain ⟨ha, hc, hk⟩ := h
        subst ha
        have := ih (depth + 1) arg' c' k' hr
        exact ⟨List.Sublist.cons₂ _ this.1, by omega, by simp; omega⟩
    · cases hr : parseOneArg (depth - 1) rest with
      | error e => rw [hr] at h; exact absurd h (by simp)
      | ok v =>
        obtain ⟨arg', c', k'⟩ := v
        rw [hr] at h
        simp only [Except.ok.injEq, Prod.mk.injEq] at h
        obtain ⟨ha, hc, hk⟩ := h
        subst ha
        have := ih (depth - 1) arg' c' k' hr
        exact ⟨List.Sublist.cons₂ _ this.1, by omega, by simp; omega⟩
    · cases hr : parseOneArg depth rest with
      | error e => rw [hr] at h; exact absurd h (by simp)
      | ok v =>
        obtain ⟨arg', c', k'⟩ := v
        rw [hr] at h
        simp only [Except.ok.injEq, Prod.mk.injEq] at h
        obtain ⟨ha, hc, hk⟩ := h
        subst ha
        have := ih depth arg' c' k' hr
        exact ⟨List.Sublist.cons₂ _ this.1, by omega, by simp; omega⟩

theorem parseArgsLoop_facts : ∀ (n : Nat) (ts : List Token)
    (args : List (List Token)) (k : Nat),
    parseArgsLoop n ts = some (.ok (args, k)) →
    ∀ a ∈ args, a.Sublist ts := by
  intro n
  induction n with
  | zero => intro ts args k h; simp [parseArgsLoop] at h
  | succ n ih =>
    intro ts args k h
    unfold parseArgsLoop at h
    cases hr : parseOneArg 0 ts with
    | error e => rw [hr] at h; exact absurd h (by simp)
    | ok v =>
      obtain ⟨arg, isClose, k0⟩ := v
      rw [hr] at h
      have hfacts := parseOneArg_facts ts 0 arg isClose k0 hr
      cases isClose with
      | true =>
        simp +decide only [if_true, Option.some.injEq, Except.ok.injEq, Prod.mk.injEq] at h
        obtain ⟨ha, _⟩ := h
        subst ha
        intro a ha
        rcases List.mem_singleton.1 ha with rfl
        exact hfacts.1
      | false =>
        simp +decide only [if_false] at h
        cases hrec : parseArgsLoop n (ts.drop k0) with
        | none =>
          rw [hrec] at h
          simp at h
        | some v2 =>
          cases v2 with
          | error e =>
            rw [hrec] at h
            simp at h
          | ok v3 =>
            obtain ⟨args', k2⟩ := v3
            rw [hrec] at h
            simp +decide only [Option.some.injEq, Except.ok.injEq, Prod.mk.injEq] at h
            obtain ⟨ha, _⟩ := h
            subst ha
            intro a ha
            rcases List.mem_cons.1 ha with rfl | ha2
            · exact hfacts.1
            · exact (ih (ts.drop k0) args' k2 hrec a ha2).trans
                (List.drop_sublist k0 ts)

theorem parseArgsLoop_sufficient : ∀ (n : Nat) (ts : List Token),
    ts.length < n → parseArgsLoop n ts ≠ none := by
  intro n
  induction n with
  | zero => intro ts h; exact absurd h (by omega)
  | succ n ih =>
    intro ts hlen
    unfold parseArgsLoop
    cases hr : parseOneArg 0 ts with
    | error e => simp
    | ok v =>
      obtain ⟨arg, isClose, k0⟩ := v
      have hfacts := parseOneArg_facts ts 0 arg isClose k0 hr
      cases isClose with
      | true => simp
      | false =>
        simp +decide only [if_false, ne_eq]
        have hlen2 : (ts.drop k0).length < n := by
          rw [List.length_drop]; omega
        cases hrec : parseArgsLoop n (ts.drop k0) with
        | none => exact absurd hrec (ih (ts.drop k0) hlen2)
        | some v2 => cases v2 <;> simp

theorem parseAllArgs_facts (ts : List Token) (args : List (List Token)) (k : Nat)
    (h : parseAllArgs ts = some (.ok (args, k))) :
    ∀ a ∈ args, a.Sublist ts := by
  unfold parseAllArgs at h
  cases ts with
  | nil => simp at h
  | cons t rest =>
    by_cases hc : t.type = .chr ')'
    · simp only [if_pos hc, Option.some.injEq, Except.ok.injEq, Prod.mk.injEq] at h
      obtain ⟨ha, _⟩ := h
      subst ha
      intro a ha
      simp at ha
    · simp only [if_neg hc] at h
      exact parseArgsLoop_facts _ _ _ _ h

theorem parseAllArgs_ne_none (ts : List Token) : parseAllArgs ts ≠ none := by
  unfold parseAllArgs
  cases ts with
  | nil => simp
  | cons t rest =>
    by_cases hc : t.type = .chr ')'
    · simp only [if_pos hc]
      simp
    · simp only [if_neg hc]
      exact parseArgsLoop_sufficient _ _ (by omega)

theorem ppReaderNext_lt {toks : List Token} {pos : Nat} (h : pos < toks.length) :
    ppTokenBufReaderNextPPToken toks pos = (toks.getD pos eofToken, pos + 1) := by
  unfold ppTokenBufReaderNextPPToken
  rw [if_neg (by omega)]

theorem ppReaderNext_ge {toks : List Token} {pos : Nat} (h : toks.length ≤ pos) :
    ppTokenBufReaderNextPPToken toks pos = (eofToken, pos) := by
  unfold ppTokenBufReaderNextPPToken
  rw [if_pos (by omega)]

theorem ppReaderPeek_lt {toks : List Token} {pos : Nat} (h : pos < toks.length) :
    ppTokenBufReaderPeek toks pos = toks.getD pos eofToken := by
  unfold ppTokenBufReaderPeek
  rw [if_neg (by omega)]

theorem ppReaderPeek_ge {toks : List Token} {pos : Nat} (h : toks.length ≤ pos) :
    ppTokenBufReaderPeek toks pos = eofToken := by
  unfold ppTokenBufReaderPeek
  rw [if_pos (by omega)]

theorem parseDefineParams_sufficient : ∀ (n : Nat) (toks : List Token) (pos : Nat),
    pos ≤ toks.length → toks.length < pos + 2 * n →
    parseDefineParams n toks pos ≠ none := by
  intro n
  induction n with
  | zero => intro toks pos hle hlt; exact absurd hle (by omega)
  | succ n ih =>
    intro toks pos hle hlt
    unfold parseDefineParams
    cases hne : nextExpected toks pos [.ident] with
    | error e => simp
    | ok v =>
      obtain ⟨t, pos1⟩ := v
      have h1 := nextExpected_ok (by simp) hne
      simp only [ne_eq]
      cases hne2 : nextExpected toks pos1 [.chr ')', .chr ','] with
      | error e => simp
      | ok v2 =>
        obtain ⟨t2, pos2⟩ := v2
        have h2 := nextExpected_ok (by simp) hne2
        by_cases hc : t2.type = .chr ')'
        · simp [hc]
        · simp only [if_neg hc]
          cases hrec : parseDefineParams n toks pos2 with
          | none => exact absurd hrec (ih toks pos2 (by omega) (by omega))
          | some r => cases r <;> simp

theorem parseDefineParams_ok_facts : ∀ (n : Nat) (toks : List Token) (pos : Nat)
    (ps : List String) (pos' : Nat),
    parseDefineParams n toks pos = some (.ok (ps, pos')) →
    pos + 2 ≤ pos' ∧ pos' ≤ toks.length ∧
      (toks.getD (pos' - 1) eofToken).type = .chr ')' := by
  intro n
  induction n with
  | zero => intro toks pos ps pos' h; simp [parseDefineParams] at h
  | succ n ih =>
    intro toks pos ps pos' h
    unfold parseDefineParams at h
    cases hne : nextExpected toks pos [.ident] with
    | error e => rw [hne] at h; simp at h
    | ok v =>
      obtain ⟨t, pos1⟩ := v
      rw [hne] at h
      have h1 := nextExpected_ok (by simp) hne
      simp only [] at h
      cases hne2 : nextExpected toks pos1 [.chr ')', .chr ','] with
      | error e => rw [hne2] at h; simp at h
      | ok v2 =>
        obtain ⟨t2, pos2⟩ := v2
        rw [hne2] at h
        have h2 := nextExpected_ok (by simp) hne2
        by_cases hc : t2.type = .chr ')'
        · simp only [if_pos hc, Option.some.injEq, Except.ok.injEq, Prod.mk.injEq] at h
          obtain ⟨_, hpos⟩ := h
          subst hpos
          refine ⟨by omega, by omega, ?_⟩
          have heq : pos2 - 1 = pos1 := by omega
          rw [heq, ← h2.2.2.1]
          exact hc
        · simp only [if_neg hc] at h
          cases hrec : parseDefineParams n toks pos2 with
          | none => rw [hrec] at h; simp at h
          | some r =>
            cases r with
            | error e => rw [hrec] at h; simp at h
            | ok v3 =>
              obtain ⟨ps2, pos3⟩ := v3
              rw [hrec] at h
              simp only [Option.some.injEq, Except.ok.injEq, Prod.mk.injEq] at h
              obtain ⟨_, hpos⟩ := h
              subst hpos
              have h3 := ih toks pos2 ps2 pos3 hrec
              exact ⟨by omega, h3.2.1, h3.2.2⟩

theorem parseDefine_sufficient (fuel : Nat) (toks : List Token) (pos : Nat)
    (hnl : newlineTerminated toks) (hfuel : toks.length < fuel) :
    parseDefine fuel toks pos ≠ none := by
  unfold parseDefine
  cases hne : nextExpected toks pos [.ident] with
  | error e => simp
  | ok v =>
    obtain ⟨t, pos1⟩ := v
    obtain ⟨hpos, hpos1, ht, hty⟩ := nextExpected_ok (by simp) hne
    have htype : t.type = TokenType.ident := by simpa using hty
    have hlt1 : pos1 < toks.length := by
      have := newlineTerminated_getD hnl hpos (by rw [← ht, htype]; simp)
      omega
    simp only [ne_eq]
    by_cases hpar : (ppTokenBufReaderPeek toks pos1).type = TokenType.chr '(' ∧
        (ppTokenBufReaderPeek toks pos1).adjacent = true
    · simp only [if_pos hpar, ppReaderNext_lt hlt1]
      have hpark : (toks.getD pos1 eofToken).type = TokenType.chr '(' := by
        rw [← ppReaderPeek_lt hlt1]; exact hpar.1
      have hlt2 : pos1 + 1 < toks.length :=
        newlineTerminated_getD hnl hlt1 (by rw [hpark]; simp)
      by_cases hp2 : (ppTokenBufReaderPeek toks (pos1 + 1)).type = TokenType.chr ')'
      · simp only [if_pos hp2, ppReaderNext_lt hlt2]
        have hparen : (toks.getD (pos1 + 1) eofToken).type = TokenType.chr ')' := by
          rw [← ppReaderPeek_lt hlt2]; exact hp2
        have hlt3 : pos1 + 1 + 1 < toks.length :=
          newlineTerminated_getD hnl hlt2 (by rw [hparen]; simp)
        cases hcol : collectLineTokens fuel toks (pos1 + 1 + 1) with
        | none =>
          exact absurd hcol
            (collect_sufficient fuel toks (pos1 + 1 + 1) hnl (by omega) (by omega))
        | some v2 =>
          obtain ⟨body, pos3⟩ := v2
          cases hrw : rewriteDefineBody [] body <;> simp [hrw]
      · simp only [if_neg hp2]
        cases hdp : parseDefineParams fuel toks (pos1 + 1) with
        | none =>
          exact absurd hdp
            (parseDefineParams_sufficient fuel toks (pos1 + 1) (by omega) (by omega))
        | some r =>
          cases r with
          | error e => simp
          | ok v3 =>
            obtain ⟨ps, pos2⟩ := v3
            have h4 := parseDefineParams_ok_facts fuel toks (pos1 + 1) ps pos2 hdp
            have hlt4 : pos2 < toks.length := by
              have h5 := newlineTerminated_getD hnl
                (show pos2 - 1 < toks.length by omega) (by rw [h4.2.2]; simp)
              omega
            cases hcol : collectLineTokens fuel toks pos2 with
            | none =>
              exact absurd hcol (collect_sufficient fuel toks pos2 hnl hlt4 (by omega))
            | some v4 =>
              obtain ⟨body, pos3⟩ := v4
              cases hrw : rewriteDefineBody ps body <;> simp [hcol, hrw]
    · simp only [if_neg hpar]
      cases hcol : collectLineTokens fuel toks pos1 with
      | none =>
        exact absurd hcol (collect_sufficient fuel toks pos1 hnl hlt1 (by omega))
      | some v2 =>
        obtain ⟨body, pos3⟩ := v2
        simp

theorem parseDefine_ok_facts (fuel : Nat) (toks : List Token) (pos : Nat)
    (m : Macro) (pos3 : Nat)
    (h : parseDefine fuel toks pos = some (.ok (m, pos3))) :
    pos < pos3 ∧ pos3 ≤ toks.length := by
  unfold parseDefine at h
  cases hne : nextExpected toks pos [.ident] with
  | error e => rw [hne] at h; simp at h
  | ok v =>
    obtain ⟨t, pos1⟩ := v
    rw [hne] at h
    obtain ⟨hpos, hpos1, ht, hty⟩ := nextExpected_ok (by simp) hne
    simp only [] at h
    by_cases hpar : (ppTokenBufReaderPeek toks pos1).type = TokenType.chr '(' ∧
        (ppTokenBufReaderPeek toks pos1).adjacent = true
    · have hlt1 : pos1 < toks.length := by
        rcases Nat.lt_or_ge pos1 toks.length with h5 | h5
        · exact h5
        · rw [ppReaderPeek_ge h5] at hpar
          exact absurd hpar.1 (by simp [eofToken])
      rw [if_pos hpar] at h
      simp only [ppReaderNext_lt hlt1] at h
      by_cases hp2 : (ppTokenBufReaderPeek toks (pos1 + 1)).type = TokenType.chr ')'
      · simp only [if_pos hp2, ppReaderNext_lt] at h
        by_cases hl2 : pos1 + 1 < toks.length
        · simp only [ppReaderNext_lt hl2] at h
          cases hcol : collectLineTokens fuel toks (pos1 + 1 + 1) with
          | none => rw [hcol] at h; simp at h
          | some v2 =>
            obtain ⟨body, pos3'⟩ := v2
            simp only [hcol] at h
            have h6 := collect_some_facts fuel toks (pos1 + 1 + 1) body pos3' hcol
            cases hrw : rewriteDefineBody [] body with
            | error e => rw [hrw] at h; simp at h
            | ok b2 =>
              rw [hrw] at h
              simp only [Option.some.injEq, Except.ok.injEq, Prod.mk.injEq] at h
              obtain ⟨_, hp3⟩ := h
              omega
        · rw [ppReaderPeek_ge (by omega)] at hp2
          exact absurd hp2 (by simp [eofToken])
      · simp only [if_neg hp2] at h
        cases hdp : parseDefineParams fuel toks (pos1 + 1) with
        | none => rw [hdp] at h; simp at h
        | some r =>
          cases r with
          | error e => rw [hdp] at h; simp at h
          | ok v3 =>
            obtain ⟨ps, pos2⟩ := v3
            rw [hdp] at h
            have h4 := parseDefineParams_ok_facts fuel toks (pos1 + 1) ps pos2 hdp
            simp only [] at h
            cases hcol : collectLineTokens fuel toks pos2 with
            | none => rw [hcol] at h; simp at h
            | some v4 =>
              obtain ⟨body, pos3'⟩ := v4
              simp only [hcol] at h
              have h6 := collect_some_facts fuel toks pos2 body pos3' hcol
              cases hrw : rewriteDefineBody ps body with
              | error e => rw [hrw] at h; simp at h
              | ok b2 =>
                rw [hrw] at h
                simp only [Option.some.injEq, Except.ok.injEq, Prod.mk.injEq] at h
                obtain ⟨_, hp3⟩ := h
                omega
    · rw [if_neg hpar] at h
      simp only [] at h
      cases hcol : collectLineTokens fuel toks pos1 with
      | none => rw [hcol] at h; simp at h
      | some v2 =>
        obtain ⟨body, pos3'⟩ := v2
        simp only [hcol] at h
        have h6 := collect_some_facts fuel toks pos1 body pos3' hcol
        simp only [Option.some.injEq, Except.ok.injEq, Prod.mk.injEq] at h
        obtain ⟨_, hp3⟩ := h
        omega

/-! ## C2, termination infrastructure: fuel monotonicity -/

theorem collectLineTokens_mono : ∀ (n m : Nat), n ≤ m →
    ∀ (toks : List Token) (pos : Nat) (r : List Token × Nat),
    collectLineTokens n toks pos = some r → collectLineTokens m toks pos = some r := by
  intro n
  induction n with
  | zero => intro m _ toks pos r h; simp [collectLineTokens] at h
  | succ n ih =>
    intro m hle toks pos r h
    obtain ⟨m', rfl⟩ : ∃ m', m = m' + 1 := ⟨m - 1, by omega⟩
    unfold collectLineTokens at h ⊢
    by_cases hnl : (ppTokenBufReaderNextPPToken toks pos).1.type = .chr '\n'
    · rw [if_pos hnl] at h ⊢
      exact h
    · rw [if_neg hnl] at h ⊢
      cases hc : collectLineTokens n toks (ppTokenBufReaderNextPPToken toks pos).2 with
      | none => rw [hc] at h; simp at h
      | some v =>
        rw [hc] at h
        rw [ih m' (by omega) toks _ v hc]
        exact h

theorem parseDefineParams_mono : ∀ (n m : Nat), n ≤ m →
    ∀ (toks : List Token) (pos : Nat) (r : Except String (List String × Nat)),
    parseDefineParams n toks pos = some r → parseDefineParams m toks pos = some r := by
  intro n
  induction n with
  | zero => intro m _ toks pos r h; simp [parseDefineParams] at h
  | succ n ih =>
    intro m hle toks pos r h
    obtain ⟨m', rfl⟩ : ∃ m', m = m' + 1 := ⟨m - 1, by omega⟩
    unfold parseDefineParams at h ⊢
    cases hne : nextExpected toks pos [.ident] with
    | error e => rw [hne] at h; simp only [] at h; simp only [] ; exact h
    | ok v =>
      obtain ⟨t, pos1⟩ := v
      rw [hne] at h
      simp only [] at h
      simp only []
      cases hne2 : nextExpected toks pos1 [.chr ')', .chr ','] with
      | error e => rw [hne2] at h; simp only [] at h; simp only [] ; exact h
      | ok v2 =>
        obtain ⟨t2, pos2⟩ := v2
        rw [hne2] at h
        simp only [] at h
        simp only []
        by_cases hc : t2.type = .chr ')'
        · rw [if_pos hc] at h ⊢
          exact h
        · rw [if_neg hc] at h ⊢
          cases hrec : parseDefineParams n toks pos2 with
          | none => rw [hrec] at h; simp at h
          | some r2 =>
            rw [hrec] at h
            rw [ih m' (by omega) toks pos2 r2 hrec]
            exact h

theorem parseDefine_mono (n m : Nat) (hle : n ≤ m) (toks : List Token) (pos : Nat)
    (r : Except String (Macro × Nat))
    (h : parseDefine n toks pos = some r) : parseDefine m toks pos = some r := by
  unfold parseDefine at h ⊢
  cases hne : nextExpected toks pos [.ident] with
  | error e => rw [hne] at h; simp only [] at h; simp only [] ; exact h
  | ok v =>
    obtain ⟨t, pos1⟩ := v
    rw [hne] at h
    simp only [] at h
    simp only []
    by_cases hpar : (ppTokenBufReaderPeek toks pos1).type = TokenType.chr '(' ∧
        (ppTokenBufReaderPeek toks pos1).adjacent = true
    · rw [if_pos hpar] at h ⊢
      by_cases hp2 : (ppTokenBufReaderPeek toks
          (ppTokenBufReaderNextPPToken toks pos1).2).type = TokenType.chr ')'
      · rw [if_pos hp2] at h ⊢
        simp only [] at h ⊢
        cases hcol : collectLineTokens n toks
            (ppTokenBufReaderNextPPToken toks
              (ppTokenBufReaderNextPPToken toks pos1).2).2 with
        | none => rw [hcol] at h; simp at h
        | some v2 =>
          rw [hcol] at h
          rw [collectLineTokens_mono n m hle toks _ v2 hcol]
          exact h
      · rw [if_neg hp2] at h ⊢
        cases hdp : parseDefineParams n toks (ppTokenBufReaderNextPPToken toks pos1).2 with
        | none => rw [hdp] at h; simp at h
        | some r2 =>
          rw [hdp] at h
          rw [parseDefineParams_mono n m hle toks _ r2 hdp]
          cases r2 with
          | error e => exact h
          | ok v3 =>
            obtain ⟨ps, pos2⟩ := v3
            simp only [] at h ⊢
            cases hcol : collectLineTokens n toks pos2 with
            | none => rw [hcol] at h; simp at h
            | some v4 =>
              rw [hcol] at h
              rw [collectLineTokens_mono n m hle toks pos2 v4 hcol]
              exact h
    · rw [if_neg hpar] at h ⊢
      simp only [] at h ⊢
      cases hcol : collectLineTokens n toks pos1 with
      | none => rw [hcol] at h; simp at h
      | some v2 =>
        rw [hcol] at h
        rw [collectLineTokens_mono n m hle toks pos1 v2 hcol]
        exact h

theorem engine1_mono : ∀ (n m : Nat), n ≤ m →
    (∀ macros mac cEF ahead r, applyM n macros mac cEF ahead = some r →
      applyM m macros mac cEF ahead = some r) ∧
    (∀ macros argss r, expandArgs n macros argss = some r →
      expandArgs m macros argss = some r) ∧
    (∀ macros ts r, expandList n macros ts = some r →
      expandList m macros ts = some r) := by
  intro n
  induction n with
  | zero =>
    intro m _
    refine ⟨fun macros mac cEF ahead r h => by simp [applyM] at h,
            fun macros argss r h => by simp [expandArgs] at h,
            fun macros ts r h => by simp [expandList] at h⟩
  | succ n ih =>
    intro m hle
    obtain ⟨m', rfl⟩ : ∃ m', m = m' + 1 := ⟨m - 1, by omega⟩
    have ihA := (ih m' (by omega)).1
    have ihE := (ih m' (by omega)).2.1
    have ihL := (ih m' (by omega)).2.2
    refine ⟨?_, ?_, ?_⟩
    · intro macros mac cEF ahead r h
      cases ahead with
      | nil =>
        simp only [applyM] at h ⊢
        exact h
      | cons t rest =>
        simp only [applyM] at h ⊢
        by_cases hobj : mac.paramsLen < 0
        · rw [if_pos hobj] at h ⊢
          exact h
        · rw [if_neg hobj] at h ⊢
          by_cases hpt : t.type = .chr '('
          · rw [if_pos hpt] at h ⊢
            cases hargs : parseAllArgs rest with
            | none => rw [hargs] at h; simp at h
            | some ar =>
              rw [hargs] at h
              cases ar with
              | error e => simp only [] at h; simp only []; exact h
              | ok v =>
                obtain ⟨args, k⟩ := v
                simp only [] at h
                simp only []
                by_cases hlen : (args.length : Int) = mac.paramsLen
                · rw [if_pos hlen] at h ⊢
                  cases hea : expandArgs n macros args with
                  | none => rw [hea] at h; simp at h
                  | some ear =>
                    rw [hea] at h
                    rw [ihE macros args ear hea]
                    exact h
                · rw [if_neg hlen] at h ⊢
                  exact h
          · rw [if_neg hpt] at h ⊢
            exact h
    · intro macros argss r h
      cases argss with
      | nil =>
        simp only [expandArgs] at h ⊢
        exact h
      | cons a rest =>
        simp only [expandArgs] at h ⊢
        cases hel : expandList n macros a with
        | none => rw [hel] at h; simp at h
        | some v =>
          rw [hel] at h
          rw [ihL macros a v hel]
          cases v with
          | error e => exact h
          | ok ea =>
            simp only [] at h
            simp only []
            cases her : expandArgs n macros rest with
            | none => rw [her] at h; simp at h
            | some v2 =>
              rw [her] at h
              rw [ihE macros rest v2 her]
              exact h
    · intro macros ts r h
      cases ts with
      | nil =>
        simp only [expandList] at h ⊢
        exact h
      | cons t rest =>
        simp only [expandList] at h ⊢
        by_cases hid : t.type = .ident
        · rw [if_pos hid] at h ⊢
          cases hlu : mapLookup macros t.val with
          | none =>
            rw [hlu] at h
            simp only [] at h
            simp only []
            cases hrec : expandList n macros rest with
            | none => rw [hrec] at h; simp at h
            | some v =>
              rw [hrec] at h
              rw [ihL macros rest v hrec]
              exact h
          | some mac =>
            rw [hlu] at h
            simp only [] at h
            simp only []
            by_cases hpb : t.expandedFrom.contains mac.name = true
            · rw [if_pos hpb] at h ⊢
              cases hrec : expandList n macros rest with
              | none => rw [hrec] at h; simp at h
              | some v =>
                rw [hrec] at h
                rw [ihL macros rest v hrec]
                exact h
            · rw [if_neg hpb] at h ⊢
              cases ha : applyM n macros mac t.expandedFrom rest with
              | none => rw [ha] at h; simp at h
              | some ar =>
                rw [ha] at h
                rw [ihA macros mac t.expandedFrom rest ar ha]
                cases ar with
                | error e => exact h
                | ok v =>
                  obtain ⟨tks, k⟩ := v
                  simp only [] at h
                  simp only []
                  exact ihL macros _ r h
        · rw [if_neg hid] at h ⊢
          cases hrec : expandList n macros rest with
          | none => rw [hrec] at h; simp at h
          | some v =>
            rw [hrec] at h
            rw [ihL macros rest v hrec]
            exact h

theorem applyM_mono {n m : Nat} (hle : n ≤ m) {macros : List (String × Macro)}
    {mac : Macro} {cEF : List String} {ahead : List Token}
    {r : Except String (List Token × Nat)}
    (h : applyM n macros mac cEF ahead = some r) : applyM m macros mac cEF ahead = some r :=
  (engine1_mono n m hle).1 macros mac cEF ahead r h

theorem expandArgs_mono {n m : Nat} (hle : n ≤ m) {macros : List (String × Macro)}
    {argss : List (List Token)} {r : Except String (List (List Token))}
    (h : expandArgs n macros argss = some r) : expandArgs m macros argss = some r :=
  (engine1_mono n m hle).2.1 macros argss r h

theorem expandList_mono {n m : Nat} (hle : n ≤ m) {macros : List (String × Macro)}
    {ts : List Token} {r : Except String (List Token)}
    (h : expandList n macros ts = some r) : expandList m macros ts = some r :=
  (engine1_mono n m hle).2.2 macros ts r h

set_option maxHeartbeats 1000000 in
theorem engine2_mono : ∀ (n m : Nat), n ≤ m →
    (∀ p r, ppNext n p = some r → ppNext m p = some r) ∧
    (∀ p r, ppNextPPToken n p = some r → ppNextPPToken m p = some r) ∧
    (∀ p r, ppDrain n p = some r → ppDrain m p = some r) := by
  intro n
  induction n with
  | zero =>
    intro m _
    refine ⟨fun p r h => by simp [ppNext] at h,
            fun p r h => by simp [ppNextPPToken] at h,
            fun p r h => by simp [ppDrain] at h⟩
  | succ n ih =>
    intro m hle
    obtain ⟨m', rfl⟩ : ∃ m', m = m' + 1 := ⟨m - 1, by omega⟩
    have ihN := (ih m' (by omega)).1
    have ihT := (ih m' (by omega)).2.1
    have ihD := (ih m' (by omega)).2.2
    refine ⟨?_, ?_, ?_⟩
    · intro p r h
      simp only [ppNext] at h ⊢
      cases hsub : p.sub with
      | cons t rest =>
        rw [hsub] at h
        simp only [] at h
        simp only []
        by_cases hid : t.type = .ident
        · rw [if_pos hid] at h ⊢
          cases hlu : mapLookup p.macros t.val with
          | none =>
            rw [hlu] at h
            simp only [] at h
            simp only []
            exact h
          | some mac =>
            rw [hlu] at h
            simp only [] at h
            simp only []
            by_cases hpb : t.expandedFrom.contains mac.name = true
            · rw [if_pos hpb] at h ⊢
              exact h
            · rw [if_neg hpb] at h ⊢
              cases ha : applyM n p.macros mac t.expandedFrom rest with
              | none => rw [ha] at h; simp at h
              | some ar =>
                rw [ha] at h
                rw [applyM_mono (show n ≤ m' by omega) ha]
                exact h
        · rw [if_neg hid] at h ⊢
          exact h
      | nil =>
        rw [hsub] at h
        simp only [] at h
        simp only []
        cases hsrc : p.src with
        | none =>
          rw [hsrc] at h
          simp only [] at h
          simp only []
          exact h
        | some sp =>
          obtain ⟨toks, pos⟩ := sp
          rw [hsrc] at h
          simp only [] at h
          simp only []
          by_cases hidt : (ppTokenBufReaderNextPPToken toks pos).1.type = .ident
          · rw [if_pos hidt] at h ⊢
            cases hlu : mapLookup p.macros (ppTokenBufReaderNextPPToken toks pos).1.val with
            | none =>
              rw [hlu] at h
              simp only [] at h
              simp only []
              exact h
            | some mac =>
              rw [hlu] at h
              simp only [] at h
              simp only []
              cases ha : applyM n p.macros mac []
                  (toks.drop (ppTokenBufReaderNextPPToken toks pos).2) with
              | none => rw [ha] at h; simp at h
              | some ar =>
                rw [ha] at h
                rw [applyM_mono (show n ≤ m' by omega) ha]
                exact h
          · rw [if_neg hidt] at h ⊢
            by_cases hhash : (ppTokenBufReaderNextPPToken toks pos).1.type = .chr '#'
            · rw [if_pos hhash] at h ⊢
              by_cases hlh : ¬ AtLineHead toks pos = true
              · rw [if_pos hlh] at h ⊢
                exact h
              · rw [if_neg hlh] at h ⊢
                by_cases hnl2 : (ppTokenBufReaderNextPPToken toks
                    (ppTokenBufReaderNextPPToken toks pos).2).1.type = .chr '\n'
                · rw [if_pos hnl2] at h ⊢
                  exact h
                · rw [if_neg hnl2] at h ⊢
                  by_cases hid2 : (ppTokenBufReaderNextPPToken toks
                      (ppTokenBufReaderNextPPToken toks pos).2).1.type = .ident
                  · rw [if_pos hid2] at h ⊢
                    by_cases hdef : (ppTokenBufReaderNextPPToken toks
                        (ppTokenBufReaderNextPPToken toks pos).2).1.val = "define"
                    · rw [if_pos hdef] at h ⊢
                      cases hpd : parseDefine n toks (ppTokenBufReaderNextPPToken toks
                          (ppTokenBufReaderNextPPToken toks pos).2).2 with
                      | none => rw [hpd] at h; simp at h
                      | some r2 =>
                        rw [hpd] at h
                        rw [parseDefine_mono n m' (by omega) toks _ r2 hpd]
                        exact h
                    · rw [if_neg hdef] at h ⊢
                      by_cases hund : (ppTokenBufReaderNextPPToken toks
                          (ppTokenBufReaderNextPPToken toks pos).2).1.val = "undef"
                      · rw [if_pos hund] at h ⊢
                        exact h
                      · rw [if_neg hund] at h ⊢
                        by_cases hinc : (ppTokenBufReaderNextPPToken toks
                            (ppTokenBufReaderNextPPToken toks pos).2).1.val = "include"
                        · rw [if_pos hinc] at h ⊢
                          cases hne3 : nextExpected toks (ppTokenBufReaderNextPPToken toks
                              (ppTokenBufReaderNextPPToken toks pos).2).2 [.headerName] with
                          | error e =>
                            rw [hne3] at h
                            simp only [] at h
                            simp only []
                            exact h
                          | ok v3 =>
                            obtain ⟨t3, pos3⟩ := v3
                            rw [hne3] at h
                            simp only [] at h
                            simp only []
                            by_cases hvis : p.visited.contains t3.val = true
                            · rw [if_pos hvis] at h ⊢
                              exact h
                            · rw [if_neg hvis] at h ⊢
                              cases hd : ppDrain n
                                  (preprocessImpl t3.val p.tokMap (t3.val :: p.visited)) with
                              | none => rw [hd] at h; simp at h
                              | some dr =>
                                rw [hd] at h
                                rw [ihD _ dr hd]
                                exact h
                        · rw [if_neg hinc] at h ⊢
                          by_cases herr : (ppTokenBufReaderNextPPToken toks
                              (ppTokenBufReaderNextPPToken toks pos).2).1.val = "error"
                          · rw [if_neg (show ¬ (ppTokenBufReaderNextPPToken toks
                                (ppTokenBufReaderNextPPToken toks pos).2).1.val = "if" by
                                  simp [herr]),
                              if_neg (show ¬ (ppTokenBufReaderNextPPToken toks
                                (ppTokenBufReaderNextPPToken toks pos).2).1.val = "ifdef" by
                                  simp [herr]),
                              if_neg (show ¬ (ppTokenBufReaderNextPPToken toks
                                (ppTokenBufReaderNextPPToken toks pos).2).1.val = "ifndef" by
                                  simp [herr]),
                              if_neg (show ¬ (ppTokenBufReaderNextPPToken toks
                                (ppTokenBufReaderNextPPToken toks pos).2).1.val = "else" by
                                  simp [herr]),
                              if_neg (show ¬ (ppTokenBufReaderNextPPToken toks
                                (ppTokenBufReaderNextPPToken toks pos).2).1.val = "endif" by
                                  simp [herr]),
                              if_neg (show ¬ (ppTokenBufReaderNextPPToken toks
                                (ppTokenBufReaderNextPPToken toks pos).2).1.val = "line" by
                                  simp [herr]),
                              if_neg (show ¬ (ppTokenBufReaderNextPPToken toks
                                (ppTokenBufReaderNextPPToken toks pos).2).1.val = "elif" by
                                  simp [herr]),
                              if_neg (show ¬ (ppTokenBufReaderNextPPToken toks
                                (ppTokenBufReaderNextPPToken toks pos).2).1.val = "pragma" by
                                  simp [herr]),
                              if_pos herr] at h ⊢
                            cases hcl : collectLineTokens n toks
                                (ppTokenBufReaderNextPPToken toks
                                  (ppTokenBufReaderNextPPToken toks pos).2).2 with
                            | none => rw [hcl] at h; simp at h
                            | some v4 =>
                              rw [hcl] at h
                              rw [collectLineTokens_mono n m' (by omega) toks _ v4 hcl]
                              exact h
                          · rw [if_neg herr] at h ⊢
                            exact h
                  · rw [if_neg hid2] at h ⊢
                    exact h
            · rw [if_neg hhash] at h ⊢
              exact h
    · intro p r h
      simp only [ppNextPPToken] at h ⊢
      cases hsrc : p.src with
      | none =>
        rw [hsrc] at h
        simp only [] at h
        simp only []
        cases hlu : mapLookup p.tokMap p.path with
        | none =>
          rw [hlu] at h
          simp only [] at h
          simp only []
          exact h
        | some ts =>
          rw [hlu] at h
          simp only [] at h
          simp only []
          exact ihT _ r h
      | some sp =>
        rw [hsrc] at h
        simp only [] at h
        simp only []
        cases hn : ppNext n p with
        | none => rw [hn] at h; simp at h
        | some nr =>
          rw [hn] at h
          rw [ihN p nr hn]
          cases nr with
          | error e => exact h
          | ok v =>
            obtain ⟨topt, p'⟩ := v
            cases topt with
            | none =>
              simp only [] at h
              simp only []
              exact ihT p' r h
            | some t =>
              simp only [] at h
              simp only []
              by_cases hnl : t.type = .chr '\n'
              · rw [if_pos hnl] at h ⊢
                exact ihT p' r h
              · rw [if_neg hnl] at h ⊢
                exact h
    · intro p r h
      simp only [ppDrain] at h ⊢
      cases ht : ppNextPPToken n p with
      | none => rw [ht] at h; simp at h
      | some tr =>
        rw [ht] at h
        rw [ihT p tr ht]
        cases tr with
        | error e => exact h
        | ok v =>
          obtain ⟨t, p'⟩ := v
          simp only [] at h
          simp only []
          by_cases heof : t.type = .eof
          · rw [if_pos heof] at h ⊢
            exact h
          · rw [if_neg heof] at h ⊢
            cases hd : ppDrain n p' with
            | none => rw [hd] at h; simp at h
            | some dr =>
              rw [hd] at h
              rw [ihD p' dr hd]
              exact h

theorem ppNext_mono {n m : Nat} (hle : n ≤ m) {p : PPState}
    {r : Except String (Option Token × PPState)}
    (h : ppNext n p = some r) : ppNext m p = some r :=
  (engine2_mono n m hle).1 p r h

theorem ppNextPPToken_mono {n m : Nat} (hle : n ≤ m) {p : PPState}
    {r : Except String (Token × PPState)}
    (h : ppNextPPToken n p = some r) : ppNextPPToken m p = some r :=
  (engine2_mono n m hle).2.1 p r h

theorem ppDrain_mono {n m : Nat} (hle : n ≤ m) {p : PPState}
    {r : Except String (List Token × PPState)}
    (h : ppDrain n p = some r) : ppDrain m p = some r :=
  (engine2_mono n m hle).2.2 p r h

/-! ## C2, termination infrastructure: painting and bookkeeping facts -/

theorem applyM_painted (n : Nat) (macros : List (String × Macro)) (mac : Macro)
    (cEF : List String) (ahead : List Token) (tks : List Token) (k : Nat)
    (h : applyM n macros mac cEF ahead = some (.ok (tks, k))) :
    ∀ u ∈ tks, mac.name ∈ u.expandedFrom ∧ ∀ s ∈ cEF, s ∈ u.expandedFrom := by
  have hmem : ∀ (l : List Token), ∀ u ∈ l.map (extendExpandedFrom (mac.name :: cEF)),
      mac.name ∈ u.expandedFrom ∧ ∀ s ∈ cEF, s ∈ u.expandedFrom := by
    intro l u hu
    simp only [List.mem_map] at hu
    obtain ⟨t0, _, rfl⟩ := hu
    constructor
    · rw [extendExpandedFrom_mem]
      left
      simp
    · intro s hs
      rw [extendExpandedFrom_mem]
      left
      simp [hs]
  cases n with
  | zero => simp [applyM] at h
  | succ n =>
    cases ahead with
    | nil =>
      simp only [applyM] at h
      by_cases hobj : mac.paramsLen < 0
      · rw [if_pos hobj] at h
        simp only [Option.some.injEq, Except.ok.injEq, Prod.mk.injEq] at h
        obtain ⟨htks, _⟩ := h
        subst htks
        exact hmem mac.tokens
      · rw [if_neg hobj] at h
        simp only [Option.some.injEq, Except.ok.injEq, Prod.mk.injEq] at h
        obtain ⟨htks, _⟩ := h
        subst htks
        exact hmem [{ type := .ident, name := mac.name }]
    | cons t rest =>
      simp only [applyM] at h
      by_cases hobj : mac.paramsLen < 0
      · rw [if_pos hobj] at h
        simp only [Option.some.injEq, Except.ok.injEq, Prod.mk.injEq] at h
        obtain ⟨htks, _⟩ := h
        subst htks
        exact hmem mac.tokens
      · rw [if_neg hobj] at h
        by_cases hpt : t.type = .chr '('
        · rw [if_pos hpt] at h
          cases hargs : parseAllArgs rest with
          | none => rw [hargs] at h; simp at h
          | some ar =>
            rw [hargs] at h
            cases ar with
            | error e => simp at h
            | ok v =>
              obtain ⟨args, k0⟩ := v
              simp only [] at h
              by_cases hlen : (args.length : Int) = mac.paramsLen
              · rw [if_pos hlen] at h
                cases hea : expandArgs n macros args with
                | none => rw [hea] at h; simp at h
                | some ear =>
                  rw [hea] at h
                  cases ear with
                  | error e => simp at h
                  | ok expArgs =>
                    simp only [] at h
                    cases hhh : hashHashPass (substituteBody args expArgs mac.tokens) with
                    | error e => rw [hhh] at h; simp at h
                    | ok outs =>
                      rw [hhh] at h
                      simp only [Option.some.injEq, Except.ok.injEq, Prod.mk.injEq] at h
                      obtain ⟨htks, _⟩ := h
                      subst htks
                      exact hmem outs
              · rw [if_neg hlen] at h
                simp at h
        · rw [if_neg hpt] at h
          simp only [Option.some.injEq, Except.ok.injEq, Prod.mk.injEq] at h
          obtain ⟨htks, _⟩ := h
          subst htks
          exact hmem [{ type := .ident, name := mac.name }]

theorem subQueueLt_cons_of_sublist (macros : List (String × Macro)) (t : Token)
    {xs rest : List Token} (hsub : xs.Sublist rest) :
    SubQueueLt macros xs (t :: rest) := by
  apply subQueueLt_intro macros _ _ (tokenMeasure (macroNames macros) t)
    (tokenMeasure_le_card _ _)
  · rw [msrCount_cons, if_pos rfl]
    have := msrCount_sublist hsub (macroNames macros) (tokenMeasure (macroNames macros) t)
    omega
  · intro k hk _
    rw [msrCount_cons, if_neg (by omega)]
    have := msrCount_sublist hsub (macroNames macros) k
    omega

theorem subQueueLt_splice (macros : List (String × Macro)) (t : Token)
    {tks xs rest : List Token} (hsub : xs.Sublist rest)
    (hsmall : ∀ u ∈ tks,
      tokenMeasure (macroNames macros) u < tokenMeasure (macroNames macros) t) :
    SubQueueLt macros (tks ++ xs) (t :: rest) := by
  apply subQueueLt_intro macros _ _ (tokenMeasure (macroNames macros) t)
    (tokenMeasure_le_card _ _)
  · rw [msrCount_append, msrCount_cons, if_pos rfl,
      msrCount_zero_of_lt _ _ _ hsmall _ (le_refl _)]
    have := msrCount_sublist hsub (macroNames macros) (tokenMeasure (macroNames macros) t)
    omega
  · intro k hk _
    rw [msrCount_append, msrCount_cons, if_neg (by omega),
      msrCount_zero_of_lt _ _ _ hsmall _ (by omega)]
    have := msrCount_sublist hsub (macroNames macros) k
    omega

theorem mapLookup_name_mem {macros : List (String × Macro)} {k : String} {mac : Macro}
    (h : mapLookup macros k = some mac) : mac.name ∈ macroNames macros := by
  unfold mapLookup at h
  cases hf : macros.find? (fun e => e.1 == k) with
  | none => rw [hf] at h; simp at h
  | some e =>
    rw [hf] at h
    simp only [Option.some.injEq] at h
    subst h
    have hmem := List.mem_of_find?_eq_some hf
    unfold macroNames
    simp only [List.mem_toFinset, List.mem_map]
    exact ⟨e, hmem, rfl⟩

theorem mapLookup_none_of_not_mem {α : Type} {m : List (String × α)} {k : String}
    (h : k ∉ m.map (fun e => e.1)) : mapLookup m k = none := by
  unfold mapLookup
  cases hf : m.find? (fun e => e.1 == k) with
  | none => rfl
  | some e =>
    exfalso
    have hmem := List.mem_of_find?_eq_some hf
    have hpred := List.find?_some hf
    simp only [beq_iff_eq] at hpred
    exact h (by simp only [List.mem_map]; exact ⟨e, hmem, hpred⟩)

theorem unvisitedCount_le_of_subset {p q : PPState}
    (hmap : q.tokMap = p.tokMap) (hvis : ∀ s ∈ p.visited, s ∈ q.visited) :
    unvisitedCount q ≤ unvisitedCount p := by
  unfold unvisitedCount
  rw [hmap]
  apply Finset.card_le_card
  apply Finset.sdiff_subset_sdiff (le_refl _)
  intro s hs
  simp only [List.mem_toFinset] at hs ⊢
  exact hvis s hs

theorem unvisitedCount_lt_include {p : PPState} {path : String}
    (hmem : path ∈ p.tokMap.map (fun e => e.1)) (hnv : path ∉ p.visited) :
    unvisitedCount (preprocessImpl path p.tokMap (path :: p.visited)) <
      unvisitedCount p := by
  unfold unvisitedCount preprocessImpl
  apply Finset.card_lt_card
  constructor
  · intro s hs
    simp only [Finset.mem_sdiff, List.mem_toFinset, List.mem_cons] at hs ⊢
    exact ⟨hs.1, fun hc => hs.2 (Or.inr hc)⟩
  · intro hss
    have h1 : path ∈ (p.tokMap.map (fun e => e.1)).toFinset \ p.visited.toFinset := by
      simp only [Finset.mem_sdiff, List.mem_toFinset]
      exact ⟨hmem, hnv⟩
    have h2 := hss h1
    simp [Finset.mem_sdiff, List.mem_toFinset, List.mem_cons] at h2

theorem vecLt_wf : WellFounded VecLt :=
  ⟨fun l => vecLt_wf_aux l.length l rfl⟩

theorem stateLt_wf : WellFounded StateLt :=
  InvImage.wf stateMeasure (WellFounded.prod_lex (Nat.lt_wfRel.wf) vecLt_wf)

theorem stateLt_left {p' p : PPState} (h : srcRem p' < srcRem p) : StateLt p' p := by
  unfold StateLt stateMeasure
  exact Prod.Lex.left _ _ h

theorem stateLt_right {p' p : PPState} (heq : srcRem p' = srcRem p)
    (h : VecLt (msrVec (macroNames p'.macros) p'.sub)
      (msrVec (macroNames p.macros) p.sub)) :
    StateLt p' p := by
  unfold StateLt stateMeasure
  rw [heq]
  exact Prod.Lex.right _ h

/-! ## C2, termination of the expansion engine -/

theorem expandArgs_term (macros : List (String × Macro)) :
    ∀ (argss : List (List Token)),
    (∀ a ∈ argss, ∃ n, expandList n macros a ≠ none) →
    ∃ n, expandArgs n macros argss ≠ none := by
  intro argss
  induction argss with
  | nil => intro _; exact ⟨1, by simp [expandArgs]⟩
  | cons a rest ih =>
    intro hall
    obtain ⟨n1, h1⟩ := hall a (by simp)
    obtain ⟨n2, h2⟩ := ih (fun x hx => hall x (by simp [hx]))
    refine ⟨max n1 n2 + 1, ?_⟩
    simp only [expandArgs]
    cases hel : expandList n1 macros a with
    | none => exact absurd hel h1
    | some v =>
      rw [expandList_mono (le_max_left n1 n2) hel]
      cases v with
      | error e => simp
      | ok ea =>
        simp only []
        cases her : expandArgs n2 macros rest with
        | none => exact absurd her h2
        | some v2 =>
          rw [expandArgs_mono (le_max_right n1 n2) her]
          cases v2 <;> simp

theorem applyM_term (macros : List (String × Macro)) (mac : Macro) (cEF : List String)
    (ahead : List Token)
    (hterm : ∀ xs : List Token, xs.Sublist ahead → ∃ n, expandList n macros xs ≠ none) :
    ∃ n, applyM n macros mac cEF ahead ≠ none := by
  cases ahead with
  | nil =>
    refine ⟨1, ?_⟩
    simp only [applyM]
    split <;> simp
  | cons t rest =>
    by_cases hobj : mac.paramsLen < 0
    · refine ⟨1, ?_⟩
      simp only [applyM]
      rw [if_pos hobj]
      simp
    · by_cases hpt : t.type = .chr '('
      · cases hargs : parseAllArgs rest with
        | none => exact absurd hargs (parseAllArgs_ne_none rest)
        | some ar =>
          cases ar with
          | error e =>
            refine ⟨1, ?_⟩
            simp only [applyM]
            rw [if_neg hobj, if_pos hpt, hargs]
            simp
          | ok v =>
            obtain ⟨args, k0⟩ := v
            by_cases hlen : (args.length : Int) = mac.paramsLen
            · have hsubs : ∀ a ∈ args, ∃ n, expandList n macros a ≠ none := by
                intro a ha
                apply hterm
                exact (parseAllArgs_facts rest args k0 hargs a ha).trans
                  (List.sublist_cons_self t rest)
              obtain ⟨nE, hE⟩ := expandArgs_term macros args hsubs
              refine ⟨nE + 1, ?_⟩
              simp only [applyM]
              rw [if_neg hobj, if_pos hpt, hargs]
              simp only []
              rw [if_pos hlen]
              cases hea : expandArgs nE macros args with
              | none => exact absurd hea hE
              | some ear =>
                cases ear with
                | error e => simp
                | ok expArgs =>
                  simp only []
                  cases hashHashPass (substituteBody args expArgs mac.tokens) <;> simp
            · refine ⟨1, ?_⟩
              simp only [applyM]
              rw [if_neg hobj, if_pos hpt, hargs]
              simp only []
              rw [if_neg hlen]
              simp
      · refine ⟨1, ?_⟩
        simp only [applyM]
        rw [if_neg hobj, if_neg hpt]
        simp

theorem expandList_term (macros : List (String × Macro)) :
    ∀ ts : List Token, ∃ n, expandList n macros ts ≠ none := by
  have main : ∀ ts : List Token,
      (∀ ts', SubQueueLt macros ts' ts → ∃ n, expandList n macros ts' ≠ none) →
      ∃ n, expandList n macros ts ≠ none := by
    intro ts IH
    cases ts with
    | nil => exact ⟨1, by simp [expandList]⟩
    | cons t rest =>
      have hrest := IH rest (subQueueLt_cons_of_sublist macros t (List.Sublist.refl rest))
      by_cases hid : t.type = .ident
      · cases hlu : mapLookup macros t.val with
        | none =>
          obtain ⟨n1, h1⟩ := hrest
          refine ⟨n1 + 1, ?_⟩
          simp only [expandList]
          rw [if_pos hid, hlu]
          simp only []
          cases hrec : expandList n1 macros rest with
          | none => exact absurd hrec h1
          | some v => cases v <;> simp
        | some mac =>
          by_cases hpb : t.expandedFrom.contains mac.name = true
          · obtain ⟨n1, h1⟩ := hrest
            refine ⟨n1 + 1, ?_⟩
            simp only [expandList]
            rw [if_pos hid, hlu]
            simp only []
            rw [if_pos hpb]
            cases hrec : expandList n1 macros rest with
            | none => exact absurd hrec h1
            | some v => cases v <;> simp
          · have happ : ∃ n, applyM n macros mac t.expandedFrom rest ≠ none := by
              apply applyM_term
              intro xs hxs
              exact IH xs (subQueueLt_cons_of_sublist macros t hxs)
            obtain ⟨nA, hA⟩ := happ
            cases ha : applyM nA macros mac t.expandedFrom rest with
            | none => exact absurd ha hA
            | some ar =>
              cases ar with
              | error e =>
                refine ⟨nA + 1, ?_⟩
                simp only [expandList]
                rw [if_pos hid, hlu]
                simp only []
                rw [if_neg hpb, ha]
                simp
              | ok v =>
                obtain ⟨tks, k⟩ := v
                have hpainted := applyM_painted nA macros mac t.expandedFrom rest tks k ha
                have hsmall : ∀ u ∈ tks, tokenMeasure (macroNames macros) u <
                    tokenMeasure (macroNames macros) t := by
                  intro u hu
                  obtain ⟨hnm, hsub⟩ := hpainted u hu
                  apply tokenMeasure_lt_of_extend _ _ _ mac.name
                  · exact mapLookup_name_mem hlu
                  · intro hc
                    exact hpb (by simpa using hc)
                  · exact hsub
                  · exact hnm
                obtain ⟨nC, hC⟩ := IH (tks ++ rest.drop k)
                  (subQueueLt_splice macros t (List.drop_sublist k rest) hsmall)
                refine ⟨max nA nC + 1, ?_⟩
                simp only [expandList]
                rw [if_pos hid, hlu]
                simp only []
                rw [if_neg hpb, applyM_mono (le_max_left nA nC) ha]
                simp only []
                cases hcc : expandList nC macros (tks ++ rest.drop k) with
                | none => exact absurd hcc hC
                | some rr =>
                  rw [expandList_mono (le_max_right nA nC) hcc]
                  simp
      · obtain ⟨n1, h1⟩ := hrest
        refine ⟨n1 + 1, ?_⟩
        simp only [expandList]
        rw [if_neg hid]
        cases hrec : expandList n1 macros rest with
        | none => exact absurd hrec h1
        | some v => cases v <;> simp
  intro ts
  exact (subQueueLt_wf macros).induction ts main

/-! ## C2, termination of the preprocessor loops -/

theorem stateLt_src_advance {p p' : PPState} {toks : List Token} {pos pos' : Nat}
    (hsrc : p.src = some (toks, pos)) (hsrc' : p'.src = some (toks, pos'))
    (hlt : pos < toks.length) (hadv : pos < pos') : StateLt p' p := by
  apply stateLt_left
  unfold srcRem
  rw [hsrc, hsrc']
  simp only []
  omega

theorem goodState_same_toks {p p' : PPState} {toks : List Token} {pos pos' : Nat}
    (hg : GoodState p) (hsrc : p.src = some (toks, pos))
    (hsrc' : p'.src = some (toks, pos')) (hmap : p'.tokMap = p.tokMap) :
    GoodState p' := by
  refine ⟨fun e he => hg.1 e (hmap ▸ he), ?_⟩
  intro toks2 pos2 h
  rw [hsrc'] at h
  simp only [Option.some.injEq, Prod.mk.injEq] at h
  obtain ⟨h1, _⟩ := h
  rw [← h1]
  exact hg.2 toks pos hsrc

theorem subUpdate_facts (p : PPState) (hg : GoodState p) (q : List Token)
    (hlt : SubQueueLt p.macros q p.sub) :
    GoodState { p with sub := q } ∧
    ({ p with sub := q } : PPState).tokMap = p.tokMap ∧
    (∀ s ∈ p.visited, s ∈ ({ p with sub := q } : PPState).visited) ∧
    (p.src ≠ none → ({ p with sub := q } : PPState).src ≠ none) ∧
    StateLt { p with sub := q } p := by
  refine ⟨⟨hg.1, hg.2⟩, rfl, fun s hs => hs, fun h => h, ?_⟩
  refine stateLt_right ?_ ?_
  · rfl
  · exact hlt

theorem ppNext_step_sub (p : PPState) (hg : GoodState p) (t : Token)
    (rest : List Token) (hsub : p.sub = t :: rest) :
    ∃ n r, ppNext n p = some r ∧
      ∀ topt p', r = Except.ok (topt, p') →
        GoodState p' ∧ p'.tokMap = p.tokMap ∧ (∀ s ∈ p.visited, s ∈ p'.visited) ∧
        (p.src ≠ none → p'.src ≠ none) ∧ StateLt p' p := by
  have hrest : SubQueueLt p.macros rest p.sub := by
    rw [hsub]
    exact subQueueLt_cons_of_sublist p.macros t (List.Sublist.refl rest)
  by_cases hid : t.type = .ident
  · cases hlu : mapLookup p.macros t.val with
    | none =>
      refine ⟨1, .ok (some t, { p with sub := rest }), ?_, ?_⟩
      · simp only [ppNext]
        rw [hsub]
        simp only []
        rw [if_pos hid, hlu]
      · intro topt p' hr
        simp only [Except.ok.injEq, Prod.mk.injEq] at hr
        obtain ⟨_, h2⟩ := hr
        subst h2
        exact subUpdate_facts p hg rest hrest
    | some mac =>
      by_cases hpb : t.expandedFrom.contains mac.name = true
      · refine ⟨1, .ok (some t, { p with sub := rest }), ?_, ?_⟩
        · simp only [ppNext]
          rw [hsub]
          simp only []
          rw [if_pos hid, hlu]
          simp only []
          rw [if_pos hpb]
        · intro topt p' hr
          simp only [Except.ok.injEq, Prod.mk.injEq] at hr
          obtain ⟨_, h2⟩ := hr
          subst h2
          exact subUpdate_facts p hg rest hrest
      · obtain ⟨nA, hA⟩ := applyM_term p.macros mac t.expandedFrom rest
          (fun xs _ => expandList_term p.macros xs)
        cases ha : applyM nA p.macros mac t.expandedFrom rest with
        | none => exact absurd ha hA
        | some ar =>
          cases ar with
          | error e =>
            refine ⟨nA + 1, .error e, ?_, by intro _ _ hr; cases hr⟩
            simp only [ppNext]
            rw [hsub]
            simp only []
            rw [if_pos hid, hlu]
            simp only []
            rw [if_neg hpb, ha]
          | ok v =>
            obtain ⟨tks, k⟩ := v
            have hpainted := applyM_painted nA p.macros mac t.expandedFrom rest tks k ha
            have hsmall : ∀ u ∈ tks, tokenMeasure (macroNames p.macros) u <
                tokenMeasure (macroNames p.macros) t := by
              intro u hu
              obtain ⟨hnm, hsubEF⟩ := hpainted u hu
              apply tokenMeasure_lt_of_extend _ _ _ mac.name
              · exact mapLookup_name_mem hlu
              · intro hc
                exact hpb (by simpa using hc)
              · exact hsubEF
              · exact hnm
            have hsplice : SubQueueLt p.macros (tks ++ rest.drop k) p.sub := by
              rw [hsub]
              exact subQueueLt_splice p.macros t (List.drop_sublist k rest) hsmall
            refine ⟨nA + 1, .ok (none, { p with sub := tks ++ rest.drop k }), ?_, ?_⟩
            · simp only [ppNext]
              rw [hsub]
              simp only []
              rw [if_pos hid, hlu]
              simp only []
              rw [if_neg hpb, ha]
            · intro topt p' hr
              simp only [Except.ok.injEq, Prod.mk.injEq] at hr
              obtain ⟨_, h2⟩ := hr
              subst h2
              exact subUpdate_facts p hg (tks ++ rest.drop k) hsplice
  · refine ⟨1, .ok (some t, { p with sub := rest }), ?_, ?_⟩
    · simp only [ppNext]
      rw [hsub]
      simp only []
      rw [if_neg hid]
    · intro topt p' hr
      simp only [Except.ok.injEq, Prod.mk.injEq] at hr
      obtain ⟨_, h2⟩ := hr
      subst h2
      exact subUpdate_facts p hg rest hrest

set_option maxHeartbeats 1000000 in
theorem ppNext_step_src (p : PPState) (hg : GoodState p) (toks : List Token) (pos : Nat)
    (hsub : p.sub = []) (hsrc : p.src = some (toks, pos))
    (hdrain : ∀ path : String, p.visited.contains path = false →
      ∃ n r, ppDrain n (preprocessImpl path p.tokMap (path :: p.visited)) = some r ∧
        ∀ ts q, r = Except.ok (ts, q) →
          q.tokMap = p.tokMap ∧ ∀ s ∈ path :: p.visited, s ∈ q.visited) :
    ∃ n r, ppNext n p = some r ∧
      ∀ topt p', r = Except.ok (topt, p') →
        GoodState p' ∧ p'.tokMap = p.tokMap ∧ (∀ s ∈ p.visited, s ∈ p'.visited) ∧
        p'.src ≠ none ∧
        ((∀ tk, topt = some tk → ¬ tk.type = .eof) → StateLt p' p) := by
  have hnlt : newlineTerminated toks := hg.2 toks pos hsrc
  rcases Nat.lt_or_ge pos toks.length with hpos | hpos
  · -- a real token is read at `pos`
    by_cases hid : (toks.getD pos eofToken).type = .ident
    · cases hlu : mapLookup p.macros (toks.getD pos eofToken).val with
      | none =>
        refine ⟨1, .ok (some (toks.getD pos eofToken), { p with src := some (toks, pos + 1) }),
          ?_, ?_⟩
        · simp only [ppNext]
          rw [hsub]
          simp only []
          rw [hsrc]
          simp only []
          rw [ppReaderNext_lt hpos]
          simp only []
          rw [if_pos hid, hlu]
        · intro topt p' hr
          simp only [Except.ok.injEq, Prod.mk.injEq] at hr
          obtain ⟨_, h2⟩ := hr
          subst h2
          exact ⟨goodState_same_toks hg hsrc rfl rfl, rfl, fun s hs => hs, by simp,
            fun _ => stateLt_src_advance hsrc rfl hpos (by omega)⟩
      | some mac =>
        obtain ⟨nA, hA⟩ := applyM_term p.macros mac [] (toks.drop (pos + 1))
          (fun xs _ => expandList_term p.macros xs)
        cases ha : applyM nA p.macros mac [] (toks.drop (pos + 1)) with
        | none => exact absurd ha hA
        | some ar =>
          cases ar with
          | error e =>
            refine ⟨nA + 1, .error e, ?_, by intro _ _ hr; cases hr⟩
            simp only [ppNext]
            rw [hsub]
            simp only []
            rw [hsrc]
            simp only []
            rw [ppReaderNext_lt hpos]
            simp only []
            rw [if_pos hid, hlu]
            simp only []
            rw [ha]
          | ok v =>
            obtain ⟨tks, k⟩ := v
            refine ⟨nA + 1,
              .ok (none, { p with src := some (toks, pos + 1 + k), sub := tks }), ?_, ?_⟩
            · simp only [ppNext]
              rw [hsub]
              simp only []
              rw [hsrc]
              simp only []
              rw [ppReaderNext_lt hpos]
              simp only []
              rw [if_pos hid, hlu]
              simp only []
              rw [ha]
            · intro topt p' hr
              simp only [Except.ok.injEq, Prod.mk.injEq] at hr
              obtain ⟨_, h2⟩ := hr
              subst h2
              exact ⟨goodState_same_toks hg hsrc rfl rfl, rfl, fun s hs => hs, by simp,
                fun _ => stateLt_src_advance hsrc rfl hpos (by omega)⟩
    · by_cases hhash : (toks.getD pos eofToken).type = .chr '#'
      · have hlt1 : pos + 1 < toks.length :=
          newlineTerminated_getD hnlt hpos (by rw [hhash]; decide)
        by_cases hlh : ¬ AtLineHead toks pos = true
        · -- a `#` not at a line head is an ordinary token
          refine ⟨1, .ok (some (toks.getD pos eofToken),
            { p with src := some (toks, pos + 1) }), ?_, ?_⟩
          · simp only [ppNext]
            rw [hsub]
            simp only []
            rw [hsrc]
            simp only []
            rw [ppReaderNext_lt hpos]
            simp only []
            rw [if_neg hid, if_pos hhash, if_pos hlh]
          · intro topt p' hr
            simp only [Except.ok.injEq, Prod.mk.injEq] at hr
            obtain ⟨_, h2⟩ := hr
            subst h2
            exact ⟨goodState_same_toks hg hsrc rfl rfl, rfl, fun s hs => hs, by simp,
              fun _ => stateLt_src_advance hsrc rfl hpos (by omega)⟩
        · by_cases hnl2 : (toks.getD (pos + 1) eofToken).type = .chr '\n'
          · -- `#` followed by newline: the newline is returned
            refine ⟨1, .ok (some (toks.getD (pos + 1) eofToken),
              { p with src := some (toks, pos + 1 + 1) }), ?_, ?_⟩
            · simp only [ppNext]
              rw [hsub]
              simp only []
              rw [hsrc]
              simp only []
              rw [ppReaderNext_lt hpos]
              simp only []
              rw [if_neg hid, if_pos hhash, if_neg hlh]
              rw [ppReaderNext_lt hlt1]
              simp only []
              rw [if_pos hnl2]
            · intro topt p' hr
              simp only [Except.ok.injEq, Prod.mk.injEq] at hr
              obtain ⟨_, h2⟩ := hr
              subst h2
              exact ⟨goodState_same_toks hg hsrc rfl rfl, rfl, fun s hs => hs, by simp,
                fun _ => stateLt_src_advance hsrc rfl hpos (by omega)⟩
          · by_cases hid2 : (toks.getD (pos + 1) eofToken).type = .ident
            · have hlt2 : pos + 1 + 1 < toks.length :=
                newlineTerminated_getD hnlt hlt1 (by rw [hid2]; decide)
              by_cases hdef : (toks.getD (pos + 1) eofToken).val = "define"
              · -- #define
                cases hpd : parseDefine (toks.length + 1) toks (pos + 1 + 1) with
                | none =>
                  exact absurd hpd (parseDefine_sufficient _ toks _ hnlt (by omega))
                | some r2 =>
                  cases r2 with
                  | error e =>
                    refine ⟨toks.length + 2, .error e, ?_, by intro _ _ hr; cases hr⟩
                    simp only [ppNext]
                    rw [hsub]
                    simp only []
                    rw [hsrc]
                    simp only []
                    rw [ppReaderNext_lt hpos]
                    simp only []
                    rw [if_neg hid, if_pos hhash, if_neg hlh]
                    rw [ppReaderNext_lt hlt1]
                    simp only []
                    rw [if_neg hnl2, if_pos hid2, if_pos hdef, hpd]
                  | ok v2 =>
                    obtain ⟨mac2, pos3⟩ := v2
                    have hfacts := parseDefine_ok_facts (toks.length + 1) toks
                      (pos + 1 + 1) mac2 pos3 hpd
                    refine ⟨toks.length + 2, .ok (none, { p with src := some (toks, pos3), macros := mapInsert p.macros mac2.name mac2 }), ?_, ?_⟩
                    · simp only [ppNext]
                      rw [hsub]
                      simp only []
                      rw [hsrc]
                      simp only []
                      rw [ppReaderNext_lt hpos]
                      simp only []
                      rw [if_neg hid, if_pos hhash, if_neg hlh]
                      rw [ppReaderNext_lt hlt1]
                      simp only []
                      rw [if_neg hnl2, if_pos hid2, if_pos hdef, hpd]
                    · intro topt p' hr
                      simp only [Except.ok.injEq, Prod.mk.injEq] at hr
                      obtain ⟨_, h2⟩ := hr
                      subst h2
                      exact ⟨goodState_same_toks hg hsrc rfl rfl, rfl, fun s hs => hs,
                        by simp,
                        fun _ => stateLt_src_advance hsrc rfl hpos (by omega)⟩
              · by_cases hund : (toks.getD (pos + 1) eofToken).val = "undef"
                · -- #undef
                  cases hne4 : nextExpected toks (pos + 1 + 1) [.ident] with
                  | error e =>
                    refine ⟨1, .error e, ?_, by intro _ _ hr; cases hr⟩
                    simp only [ppNext]
                    rw [hsub]
                    simp only []
                    rw [hsrc]
                    simp only []
                    rw [ppReaderNext_lt hpos]
                    simp only []
                    rw [if_neg hid, if_pos hhash, if_neg hlh]
                    rw [ppReaderNext_lt hlt1]
                    simp only []
                    rw [if_neg hnl2, if_pos hid2, if_neg hdef, if_pos hund, hne4]
                  | ok v3 =>
                    obtain ⟨t3, pos3⟩ := v3
                    have h3 := nextExpected_ok (by simp) hne4
                    cases hne5 : nextExpected toks pos3 [.chr '\n'] with
                    | error e =>
                      refine ⟨1, .error e, ?_, by intro _ _ hr; cases hr⟩
                      simp only [ppNext]
                      rw [hsub]
                      simp only []
                      rw [hsrc]
                      simp only []
                      rw [ppReaderNext_lt hpos]
                      simp only []
                      rw [if_neg hid, if_pos hhash, if_neg hlh]
                      rw [ppReaderNext_lt hlt1]
                      simp only []
                      rw [if_neg hnl2, if_pos hid2, if_neg hdef, if_pos hund, hne4]
                      simp only []
                      rw [hne5]
                    | ok v4 =>
                      obtain ⟨t4, pos4⟩ := v4
                      have h4 := nextExpected_ok (by simp) hne5
                      refine ⟨1, .ok (none, { p with src := some (toks, pos4), macros := mapErase p.macros t3.val }), ?_, ?_⟩
                      · simp only [ppNext]
                        rw [hsub]
                        simp only []
                        rw [hsrc]
                        simp only []
                        rw [ppReaderNext_lt hpos]
                        simp only []
                        rw [if_neg hid, if_pos hhash, if_neg hlh]
                        rw [ppReaderNext_lt hlt1]
                        simp only []
                        rw [if_neg hnl2, if_pos hid2, if_neg hdef, if_pos hund, hne4]
                        simp only []
                        rw [hne5]
                      · intro topt p' hr
                        simp only [Except.ok.injEq, Prod.mk.injEq] at hr
                        obtain ⟨_, h2⟩ := hr
                        subst h2
                        exact ⟨goodState_same_toks hg hsrc rfl rfl, rfl, fun s hs => hs,
                          by simp,
                          fun _ => stateLt_src_advance hsrc rfl hpos (by omega)⟩
                · by_cases hinc : (toks.getD (pos + 1) eofToken).val = "include"
                  · -- #include
                    cases hne3 : nextExpected toks (pos + 1 + 1) [.headerName] with
                    | error e =>
                      refine ⟨1, .error e, ?_, by intro _ _ hr; cases hr⟩
                      simp only [ppNext]
                      rw [hsub]
                      simp only []
                      rw [hsrc]
                      simp only []
                      rw [ppReaderNext_lt hpos]
                      simp only []
                      rw [if_neg hid, if_pos hhash, if_neg hlh]
                      rw [ppReaderNext_lt hlt1]
                      simp only []
                      rw [if_neg hnl2, if_pos hid2, if_neg hdef, if_neg hund,
                        if_pos hinc, hne3]
                    | ok v3 =>
                      obtain ⟨t3, pos3⟩ := v3
                      have h3 := nextExpected_ok (by simp) hne3
                      by_cases hvis : p.visited.contains t3.val = true
                      · refine ⟨1, .error ("preprocess: recursive #include: " ++ t3.val),
                          ?_, by intro _ _ hr; cases hr⟩
                        simp only [ppNext]
                        rw [hsub]
                        simp only []
                        rw [hsrc]
                        simp only []
                        rw [ppReaderNext_lt hpos]
                        simp only []
                        rw [if_neg hid, if_pos hhash, if_neg hlh]
                        rw [ppReaderNext_lt hlt1]
                        simp only []
                        rw [if_neg hnl2, if_pos hid2, if_neg hdef, if_neg hund,
                          if_pos hinc, hne3]
                        simp only []
                        rw [if_pos hvis]
                      · obtain ⟨nD, rD, heqD, hfD⟩ := hdrain t3.val
                          (by rwa [← Bool.not_eq_true])
                        cases rD with
                        | error e =>
                          refine ⟨nD + 1, .error e, ?_, by intro _ _ hr; cases hr⟩
                          simp only [ppNext]
                          rw [hsub]
                          simp only []
                          rw [hsrc]
                          simp only []
                          rw [ppReaderNext_lt hpos]
                          simp only []
                          rw [if_neg hid, if_pos hhash, if_neg hlh]
                          rw [ppReaderNext_lt hlt1]
                          simp only []
                          rw [if_neg hnl2, if_pos hid2, if_neg hdef, if_neg hund,
                            if_pos hinc, hne3]
                          simp only []
                          rw [if_neg hvis, heqD]
                        | ok vD =>
                          obtain ⟨ts0, q⟩ := vD
                          have hq := hfD ts0 q rfl
                          refine ⟨nD + 1, .ok (none, { p with src := some (toks, pos3), sub := ts0, visited := q.visited }), ?_, ?_⟩
                          · simp only [ppNext]
                            rw [hsub]
                            simp only []
                            rw [hsrc]
                            simp only []
                            rw [ppReaderNext_lt hpos]
                            simp only []
                            rw [if_neg hid, if_pos hhash, if_neg hlh]
                            rw [ppReaderNext_lt hlt1]
                            simp only []
                            rw [if_neg hnl2, if_pos hid2, if_neg hdef, if_neg hund,
                              if_pos hinc, hne3]
                            simp only []
                            rw [if_neg hvis, heqD]
                          · intro topt p' hr
                            simp only [Except.ok.injEq, Prod.mk.injEq] at hr
                            obtain ⟨_, h2⟩ := hr
                            subst h2
                            refine ⟨goodState_same_toks hg hsrc rfl rfl, rfl,
                              fun s hs => hq.2 s (List.mem_cons_of_mem _ hs), by simp,
                              fun _ => stateLt_src_advance hsrc rfl hpos (by omega)⟩
                  · -- the remaining directives all yield an error
                    have hchain : ∃ e : String,
                        ppNext (toks.length + 2) p = some (.error e) := by
                      simp only [ppNext]
                      rw [hsub]
                      simp only []
                      rw [hsrc]
                      simp only []
                      rw [ppReaderNext_lt hpos]
                      simp only []
                      rw [if_neg hid, if_pos hhash, if_neg hlh]
                      rw [ppReaderNext_lt hlt1]
                      simp only []
                      rw [if_neg hnl2, if_pos hid2, if_neg hdef, if_neg hund, if_neg hinc]
                      repeat' split
                      all_goals
                        first
                          | exact ⟨_, rfl⟩
                          | (rename_i hcol
                             exact absurd hcol
                               (collect_sufficient _ toks _ hnlt hlt2 (by omega)))
                    obtain ⟨e, he⟩ := hchain
                    exact ⟨toks.length + 2, .error e, he, by intro _ _ hr; cases hr⟩
            · -- `#` followed by a non-identifier, non-newline token
              refine ⟨1, .error "preprocess: expected identifier after directive hash",
                ?_, by intro _ _ hr; cases hr⟩
              simp only [ppNext]
              rw [hsub]
              simp only []
              rw [hsrc]
              simp only []
              rw [ppReaderNext_lt hpos]
              simp only []
              rw [if_neg hid, if_pos hhash, if_neg hlh]
              rw [ppReaderNext_lt hlt1]
              simp only []
              rw [if_neg hnl2, if_neg hid2]
      · -- an ordinary token (including the newline) is returned
        refine ⟨1, .ok (some (toks.getD pos eofToken),
          { p with src := some (toks, pos + 1) }), ?_, ?_⟩
        · simp only [ppNext]
          rw [hsub]
          simp only []
          rw [hsrc]
          simp only []
          rw [ppReaderNext_lt hpos]
          simp only []
          rw [if_neg hid, if_neg hhash]
        · intro topt p' hr
          simp only [Except.ok.injEq, Prod.mk.injEq] at hr
          obtain ⟨_, h2⟩ := hr
          subst h2
          exact ⟨goodState_same_toks hg hsrc rfl rfl, rfl, fun s hs => hs, by simp,
            fun _ => stateLt_src_advance hsrc rfl hpos (by omega)⟩
  · -- at the end of input the reader yields `EOF` without advancing
    refine ⟨1, .ok (some eofToken, { p with src := some (toks, pos) }), ?_, ?_⟩
    · simp only [ppNext]
      rw [hsub]
      simp only []
      rw [hsrc]
      simp only []
      rw [ppReaderNext_ge hpos]
      simp only []
      rw [if_neg (show ¬ eofToken.type = TokenType.ident by decide),
        if_neg (show ¬ eofToken.type = TokenType.chr '#' by decide)]
    · intro topt p' hr
      simp only [Except.ok.injEq, Prod.mk.injEq] at hr
      obtain ⟨h1, h2⟩ := hr
      subst h2
      refine ⟨goodState_same_toks hg hsrc rfl rfl, rfl, fun s hs => hs, by simp, ?_⟩
      intro hcond
      exact absurd rfl (hcond eofToken h1.symm)

theorem mapLookup_val_mem {α : Type} {m : List (String × α)} {k : String} {a : α}
    (h : mapLookup m k = some a) : ∃ e ∈ m, e.2 = a := by
  unfold mapLookup at h
  cases hf : m.find? (fun e => e.1 == k) with
  | none => rw [hf] at h; simp at h
  | some e =>
    rw [hf] at h
    simp only [Option.some.injEq] at h
    exact ⟨e, List.mem_of_find?_eq_some hf, h⟩

theorem ppNextPPToken_init_step {p : PPState} {ts : List Token}
    (hsrc : p.src = none) (hlu : mapLookup p.tokMap p.path = some ts) (j : Nat) :
    ppNextPPToken (j + 1) p = ppNextPPToken j { p with src := some (ts, 0) } := by
  simp only [ppNextPPToken]
  rw [hsrc]
  simp only []
  rw [hlu]

theorem ppDrain_init_lift {p : PPState} {ts : List Token}
    (hsrc : p.src = none) (hlu : mapLookup p.tokMap p.path = some ts)
    {m : Nat} {r : Except String (List Token × PPState)}
    (h : ppDrain m { p with src := some (ts, 0) } = some r) :
    ppDrain (m + 1) p = some r := by
  cases m with
  | zero => simp [ppDrain] at h
  | succ k =>
    simp only [ppDrain] at h
    show (match ppNextPPToken (k + 1) p with
      | none => none
      | some (.error e) => some (.error e)
      | some (.ok (t, p')) =>
        if t.type = TokenType.eof then some (.ok ([], p'))
        else match ppDrain (k + 1) p' with
          | none => none
          | some (.error e) => some (.error e)
          | some (.ok (ts2, q)) => some (.ok (t :: ts2, q))) = some r
    rw [ppNextPPToken_init_step hsrc hlu k]
    cases htk : ppNextPPToken k { p with src := some (ts, 0) } with
    | none => rw [htk] at h; simp at h
    | some tr =>
      rw [htk] at h
      cases tr with
      | error e => exact h
      | ok v =>
        obtain ⟨t, p'⟩ := v
        simp only [] at h
        simp only []
        by_cases heof : t.type = .eof
        · rw [if_pos heof] at h ⊢
          exact h
        · rw [if_neg heof] at h ⊢
          cases hd : ppDrain k p' with
          | none => rw [hd] at h; simp at h
          | some dr =>
            rw [hd] at h
            rw [ppDrain_mono (Nat.le_succ k) hd]
            exact h

theorem drain_oracle (v : Nat)
    (IH : ∀ v' : Nat, v' < v → ∀ p : PPState, unvisitedCount p ≤ v' → GoodState p →
      ∃ n r, ppDrain n p = some r ∧
        ∀ ts q, r = Except.ok (ts, q) →
          q.tokMap = p.tokMap ∧ ∀ s ∈ p.visited, s ∈ q.visited)
    (p : PPState) (hv : unvisitedCount p ≤ v) (hg : GoodState p) :
    ∀ path : String, p.visited.contains path = false →
      ∃ n r, ppDrain n (preprocessImpl path p.tokMap (path :: p.visited)) = some r ∧
        ∀ ts q, r = Except.ok (ts, q) →
          q.tokMap = p.tokMap ∧ ∀ s ∈ path :: p.visited, s ∈ q.visited := by
  intro path hvisF
  have hnmem : path ∉ p.visited := by simpa using hvisF
  by_cases hmem : path ∈ p.tokMap.map (fun e => e.1)
  · have hlt := unvisitedCount_lt_include (p := p) hmem hnmem
    cases v with
    | zero => omega
    | succ v' =>
      have hle : unvisitedCount (preprocessImpl path p.tokMap (path :: p.visited)) ≤ v' := by
        omega
      have hgF : GoodState (preprocessImpl path p.tokMap (path :: p.visited)) := by
        refine ⟨hg.1, ?_⟩
        intro toks0 pos0 hcontra
        simp [preprocessImpl] at hcontra
      obtain ⟨n, r, heq, hf⟩ := IH v' (by omega) _ hle hgF
      exact ⟨n, r, heq, fun ts q hr => hf ts q hr⟩
  · have hlu : mapLookup p.tokMap path = none := mapLookup_none_of_not_mem hmem
    refine ⟨2, .error ("preprocess: file not found: " ++ path), ?_,
      by intro _ _ hr; cases hr⟩
    have h1 : ppNextPPToken 1 (preprocessImpl path p.tokMap (path :: p.visited)) =
        some (.error ("preprocess: file not found: " ++ path)) := by
      simp only [ppNextPPToken, preprocessImpl]
      rw [hlu]
    simp only [ppDrain]
    rw [h1]

theorem ppNextPPToken_term_facts (v : Nat)
    (IH : ∀ v' : Nat, v' < v → ∀ p : PPState, unvisitedCount p ≤ v' → GoodState p →
      ∃ n r, ppDrain n p = some r ∧
        ∀ ts q, r = Except.ok (ts, q) →
          q.tokMap = p.tokMap ∧ ∀ s ∈ p.visited, s ∈ q.visited) :
    ∀ p : PPState, p.src ≠ none → unvisitedCount p ≤ v → GoodState p →
      ∃ n r, ppNextPPToken n p = some r ∧
        ∀ t p', r = Except.ok (t, p') →
          GoodState p' ∧ p'.tokMap = p.tokMap ∧ (∀ s ∈ p.visited, s ∈ p'.visited) ∧
          p'.src ≠ none ∧ (¬ t.type = .eof → Relation.TransGen StateLt p' p) := by
  have main : ∀ p : PPState,
      (∀ p', StateLt p' p → p'.src ≠ none → unvisitedCount p' ≤ v → GoodState p' →
        ∃ n r, ppNextPPToken n p' = some r ∧
          ∀ t p'', r = Except.ok (t, p'') →
            GoodState p'' ∧ p''.tokMap = p'.tokMap ∧
            (∀ s ∈ p'.visited, s ∈ p''.visited) ∧
            p''.src ≠ none ∧ (¬ t.type = .eof → Relation.TransGen StateLt p'' p')) →
      p.src ≠ none → unvisitedCount p ≤ v → GoodState p →
      ∃ n r, ppNextPPToken n p = some r ∧
        ∀ t p', r = Except.ok (t, p') →
          GoodState p' ∧ p'.tokMap = p.tokMap ∧ (∀ s ∈ p.visited, s ∈ p'.visited) ∧
          p'.src ≠ none ∧ (¬ t.type = .eof → Relation.TransGen StateLt p' p) := by
    intro p WFIH hsrcne hv hg
    obtain ⟨sp, hsp⟩ : ∃ sp, p.src = some sp := by
      cases hps : p.src with
      | none => exact absurd hps hsrcne
      | some sp => exact ⟨sp, rfl⟩
    have hstep : ∃ n r, ppNext n p = some r ∧
        ∀ topt p', r = Except.ok (topt, p') →
          GoodState p' ∧ p'.tokMap = p.tokMap ∧ (∀ s ∈ p.visited, s ∈ p'.visited) ∧
          p'.src ≠ none ∧
          ((∀ tk, topt = some tk → ¬ tk.type = .eof) → StateLt p' p) := by
      cases hsub : p.sub with
      | cons t rest =>
        obtain ⟨n, r, heq, hf⟩ := ppNext_step_sub p hg t rest hsub
        refine ⟨n, r, heq, ?_⟩
        intro topt p' hr
        obtain ⟨g1, g2, g3, g4, g5⟩ := hf topt p' hr
        exact ⟨g1, g2, g3, g4 hsrcne, fun _ => g5⟩
      | nil =>
        obtain ⟨toks, pos⟩ := sp
        exact ppNext_step_src p hg toks pos hsub hsp (drain_oracle v IH p hv hg)
    obtain ⟨n0, r0, heq0, hf0⟩ := hstep
    cases r0 with
    | error e =>
      refine ⟨n0 + 1, .error e, ?_, by intro _ _ hr; cases hr⟩
      simp only [ppNextPPToken]
      rw [hsp]
      simp only []
      rw [heq0]
    | ok v0 =>
      obtain ⟨topt, p'⟩ := v0
      obtain ⟨g1, g2, g3, g4, g5⟩ := hf0 topt p' rfl
      have hv' : unvisitedCount p' ≤ v :=
        le_trans (unvisitedCount_le_of_subset g2 g3) hv
      cases topt with
      | none =>
        have hlt : StateLt p' p := g5 (fun tk h => by cases h)
        obtain ⟨n1, r1, heq1, hf1⟩ := WFIH p' hlt g4 hv' g1
        refine ⟨max n0 n1 + 1, r1, ?_, ?_⟩
        · simp only [ppNextPPToken]
          rw [hsp]
          simp only []
          rw [ppNext_mono (le_max_left n0 n1) heq0]
          simp only []
          exact ppNextPPToken_mono (le_max_right n0 n1) heq1
        · intro t p'' hr
          obtain ⟨k1, k2, k3, k4, k5⟩ := hf1 t p'' hr
          exact ⟨k1, k2.trans g2, fun s hs => k3 s (g3 s hs), k4,
            fun hne => (k5 hne).tail hlt⟩
      | some t =>
        by_cases hnl : t.type = .chr '\n'
        · have hlt : StateLt p' p := g5 (fun tk h => by
            injection h with h2
            rw [← h2, hnl]
            decide)
          obtain ⟨n1, r1, heq1, hf1⟩ := WFIH p' hlt g4 hv' g1
          refine ⟨max n0 n1 + 1, r1, ?_, ?_⟩
          · simp only [ppNextPPToken]
            rw [hsp]
            simp only []
            rw [ppNext_mono (le_max_left n0 n1) heq0]
            simp only []
            rw [if_pos hnl]
            exact ppNextPPToken_mono (le_max_right n0 n1) heq1
          · intro t2 p'' hr
            obtain ⟨k1, k2, k3, k4, k5⟩ := hf1 t2 p'' hr
            exact ⟨k1, k2.trans g2, fun s hs => k3 s (g3 s hs), k4,
              fun hne => (k5 hne).tail hlt⟩
        · refine ⟨n0 + 1, .ok (t, p'), ?_, ?_⟩
          · simp only [ppNextPPToken]
            rw [hsp]
            simp only []
            rw [heq0]
            simp only []
            rw [if_neg hnl]
          · intro t2 p'' hr
            simp only [Except.ok.injEq, Prod.mk.injEq] at hr
            obtain ⟨h1, h2⟩ := hr
            subst h1
            subst h2
            exact ⟨g1, g2, g3, g4, fun hne =>
              Relation.TransGen.single (g5 (fun tk h => by
                injection h with h3
                rw [← h3]
                exact hne))⟩
  intro p
  exact stateLt_wf.induction p main

theorem ppDrain_term_facts (v : Nat)
    (IH : ∀ v' : Nat, v' < v → ∀ p : PPState, unvisitedCount p ≤ v' → GoodState p →
      ∃ n r, ppDrain n p = some r ∧
        ∀ ts q, r = Except.ok (ts, q) →
          q.tokMap = p.tokMap ∧ ∀ s ∈ p.visited, s ∈ q.visited) :
    ∀ p : PPState, p.src ≠ none → unvisitedCount p ≤ v → GoodState p →
      ∃ n r, ppDrain n p = some r ∧
        ∀ ts q, r = Except.ok (ts, q) →
          q.tokMap = p.tokMap ∧ ∀ s ∈ p.visited, s ∈ q.visited := by
  have main : ∀ p : PPState,
      (∀ p', Relation.TransGen StateLt p' p →
        p'.src ≠ none → unvisitedCount p' ≤ v → GoodState p' →
        ∃ n r, ppDrain n p' = some r ∧
          ∀ ts q, r = Except.ok (ts, q) →
            q.tokMap = p'.tokMap ∧ ∀ s ∈ p'.visited, s ∈ q.visited) →
      p.src ≠ none → unvisitedCount p ≤ v → GoodState p →
      ∃ n r, ppDrain n p = some r ∧
        ∀ ts q, r = Except.ok (ts, q) →
          q.tokMap = p.tokMap ∧ ∀ s ∈ p.visited, s ∈ q.visited := by
    intro p WFIH hsrcne hv hg
    obtain ⟨n0, r0, heq0, hf0⟩ := ppNextPPToken_term_facts v IH p hsrcne hv hg
    cases r0 with
    | error e =>
      refine ⟨n0 + 1, .error e, ?_, by intro _ _ hr; cases hr⟩
      simp only [ppDrain]
      rw [heq0]
    | ok v0 =>
      obtain ⟨t, p'⟩ := v0
      obtain ⟨g1, g2, g3, g4, g5⟩ := hf0 t p' rfl
      by_cases heof : t.type = .eof
      · refine ⟨n0 + 1, .ok ([], p'), ?_, ?_⟩
        · simp only [ppDrain]
          rw [heq0]
          simp only []
          rw [if_pos heof]
        · intro ts q hr
          simp only [Except.ok.injEq, Prod.mk.injEq] at hr
          obtain ⟨_, h2⟩ := hr
          subst h2
          exact ⟨g2, g3⟩
      · have htg := g5 heof
        have hv' := le_trans (unvisitedCount_le_of_subset g2 g3) hv
        obtain ⟨n1, r1, heq1, hf1⟩ := WFIH p' htg g4 hv' g1
        cases r1 with
        | error e =>
          refine ⟨max n0 n1 + 1, .error e, ?_, by intro _ _ hr; cases hr⟩
          simp only [ppDrain]
          rw [ppNextPPToken_mono (le_max_left n0 n1) heq0]
          simp only []
          rw [if_neg heof, ppDrain_mono (le_max_right n0 n1) heq1]
        | ok v1 =>
          obtain ⟨ts1, q1⟩ := v1
          obtain ⟨k1, k2⟩ := hf1 ts1 q1 rfl
          refine ⟨max n0 n1 + 1, .ok (t :: ts1, q1), ?_, ?_⟩
          · simp only [ppDrain]
            rw [ppNextPPToken_mono (le_max_left n0 n1) heq0]
            simp only []
            rw [if_neg heof, ppDrain_mono (le_max_right n0 n1) heq1]
          · intro ts q hr
            simp only [Except.ok.injEq, Prod.mk.injEq] at hr
            obtain ⟨_, h2⟩ := hr
            subst h2
            exact ⟨k1.trans g2, fun s hs => k2 s (g3 s hs)⟩
  intro p
  exact (WellFounded.transGen stateLt_wf).induction p main

theorem drainTerm_all : ∀ v : Nat, ∀ p : PPState, unvisitedCount p ≤ v → GoodState p →
    ∃ n r, ppDrain n p = some r ∧
      ∀ ts q, r = Except.ok (ts, q) →
        q.tokMap = p.tokMap ∧ ∀ s ∈ p.visited, s ∈ q.visited := by
  intro v
  induction v using Nat.strong_induction_on with
  | _ v IH =>
    intro p hv hg
    cases hps : p.src with
    | some sp =>
      exact ppDrain_term_facts v IH p (by rw [hps]; simp) hv hg
    | none =>
      cases hlu : mapLookup p.tokMap p.path with
      | none =>
        refine ⟨2, .error ("preprocess: file not found: " ++ p.path), ?_,
          by intro _ _ hr; cases hr⟩
        have h1 : ppNextPPToken 1 p =
            some (.error ("preprocess: file not found: " ++ p.path)) := by
          simp only [ppNextPPToken]
          rw [hps]
          simp only []
          rw [hlu]
        simp only [ppDrain]
        rw [h1]
      | some ts =>
        have hnlts : newlineTerminated ts := by
          obtain ⟨e, hmem, he⟩ := mapLookup_val_mem hlu
          rw [← he]
          exact hg.1 e hmem
        have hg0 : GoodState { p with src := some (ts, 0) } := by
          refine ⟨hg.1, ?_⟩
          intro toks2 pos2 hh
          simp only [Option.some.injEq, Prod.mk.injEq] at hh
          obtain ⟨h1, _⟩ := hh
          rw [← h1]
          exact hnlts
        obtain ⟨n, r, heq, hf⟩ := ppDrain_term_facts v IH { p with src := some (ts, 0) }
          (by simp) hv hg0
        exact ⟨n + 1, r, ppDrain_init_lift hps hlu heq, fun ts2 q hr => hf ts2 q hr⟩

/-- **C2** (corrected): with the newline sentinel restored — every token
vector of the translation-unit map and the current source vector end in a
`Newline` token, which `Tokenize` guarantees for its outputs — every call
to `NextPPToken` returns (a token or an error) after finitely many steps,
for every macro table, sub queue, visited set and source position,
including directly and indirectly self-referential macro definitions; in
the fuel-indexed embedding: some fuel makes `ppNextPPToken` return
`some` (the painted-blue rule bounds macro rescanning, and every other
step advances the source cursor or shrinks the pending queue). -/
theorem nextPPToken_terminates (p : PPState)
    (hmap : ∀ e ∈ p.tokMap, newlineTerminated e.2)
    (hsrc : ∀ toks pos, p.src = some (toks, pos) → newlineTerminated toks) :
    ∃ n, ppNextPPToken n p ≠ none := by
  have hg : GoodState p := ⟨hmap, hsrc⟩
  cases hps : p.src with
  | some sp =>
    obtain ⟨n, r, heq, _⟩ := ppNextPPToken_term_facts (unvisitedCount p)
      (fun v' _ => drainTerm_all v') p (by rw [hps]; simp) (le_refl _) hg
    exact ⟨n, by rw [heq]; simp⟩
  | none =>
    cases hlu : mapLookup p.tokMap p.path with
    | none =>
      refine ⟨1, ?_⟩
      have h1 : ppNextPPToken 1 p =
          some (.error ("preprocess: file not found: " ++ p.path)) := by
        simp only [ppNextPPToken]
        rw [hps]
        simp only []
        rw [hlu]
      rw [h1]
      simp
    | some ts =>
      have hnlts : newlineTerminated ts := by
        obtain ⟨e, hmem, he⟩ := mapLookup_val_mem hlu
        rw [← he]
        exact hg.1 e hmem
      have hg0 : GoodState { p with src := some (ts, 0) } := by
        refine ⟨hg.1, ?_⟩
        intro toks2 pos2 hh
        simp only [Option.some.injEq, Prod.mk.injEq] at hh
        obtain ⟨h1, _⟩ := hh
        rw [← h1]
        exact hnlts
      obtain ⟨n, r, heq, _⟩ := ppNextPPToken_term_facts (unvisitedCount p)
        (fun v' _ => drainTerm_all v') { p with src := some (ts, 0) }
        (by simp) (le_refl _) hg0
      refine ⟨n + 1, ?_⟩
      rw [ppNextPPToken_init_step hps hlu n, heq]
      simp

/-- Witness for C2 at a concrete well-formed state: the single
translation unit `B \n` (the tokenizer's newline sentinel present). -/
theorem nextPPToken_terminates_witness :
    ∃ n, ppNextPPToken n (preprocessImpl "m"
      [("m", [{ type := .ident, name := "B" }, { type := .chr '\n' }])] ["m"]) ≠ none :=
  nextPPToken_terminates _
    (by
      intro e he
      simp only [preprocessImpl] at he
      rw [List.mem_singleton] at he
      subst he
      simp [newlineTerminated])
    (by
      intro toks pos h
      simp [preprocessImpl] at h)

end Goc
